import Mathlib

/-!
# spr configuration resolution (`config/config.go`)

A shallow embedding of `config.go`: the remote identity parser
`getRepoDetailsFromRemote` (a regular expression run with Go's leftmost-first
backtracking semantics), the remote-inference source `remoteSource.Load`, and
the resolver `ParseConfig` with its layered sources.

Go strings are sequences of Unicode code points; character-level work is done
on `List Char`, the public functions take and return `String`.
-/

namespace Spr

/-! ## Regular expressions: the fragment of Go `regexp` syntax used by the pattern -/

/-- Capture table: pairs of group index and captured text, the most recent
binding first. -/
abbrev Caps := List (Nat × List Char)

/-- Regular-expression syntax tree. `plus` is `c+` for a character class `c`,
the only operand `+` has in the pattern; `group` is a capturing group with its
index (counted by opening parenthesis, from 1) and its name (empty when the
group is unnamed). -/
inductive Regex where
  | eps : Regex
  | bol : Regex
  | chr : (Char → Bool) → Regex
  | seq : Regex → Regex → Regex
  | alt : Regex → Regex → Regex
  | opt : Regex → Regex
  | plus : (Char → Bool) → Regex
  | group : Nat → String → Regex → Regex

/-- Greedy repetition of a character class: take the class character in front
if there is one and go on; if the rest of the pattern then fails, give the
character back and continue from here. -/
def starLoop (p : Char → Bool) (k : Nat → List Char → Option Caps) :
    Nat → List Char → Option Caps
  | pos, [] => k pos []
  | pos, c :: cs =>
    if p c then (starLoop p k (pos + 1) cs).orElse (fun _ => k pos (c :: cs))
    else k pos (c :: cs)

/-- Backtracking matcher in continuation-passing style. `pos` is the offset of
`s` in the searched text, `caps` the captures so far, `k` the rest of the
pattern. Alternatives are tried left to right and the first success is kept
(Go's leftmost-first, non-POSIX semantics); `e?` and `c+` are greedy. -/
def Regex.run : Regex → Nat → List Char → Caps →
    (Nat → List Char → Caps → Option Caps) → Option Caps
  | .eps, pos, s, caps, k => k pos s caps
  | .bol, pos, s, caps, k => if pos = 0 then k pos s caps else none
  | .chr p, pos, s, caps, k =>
    match s with
    | [] => none
    | c :: cs => if p c then k (pos + 1) cs caps else none
  | .seq a b, pos, s, caps, k =>
    a.run pos s caps (fun pos1 s1 caps1 => b.run pos1 s1 caps1 k)
  | .alt a b, pos, s, caps, k =>
    (a.run pos s caps k).orElse (fun _ => b.run pos s caps k)
  | .opt a, pos, s, caps, k =>
    (a.run pos s caps k).orElse (fun _ => k pos s caps)
  | .plus p, pos, s, caps, k =>
    match s with
    | [] => none
    | c :: cs =>
      if p c then starLoop p (fun pos1 s1 => k pos1 s1 caps) (pos + 1) cs else none
  | .group i _ a, pos, s, caps, k =>
    a.run pos s caps (fun pos1 s1 caps1 => k pos1 s1 ((i, s.take (pos1 - pos)) :: caps1))

/-- A literal character. -/
def Regex.lit (c : Char) : Regex := .chr (fun x => x == c)

/-- A literal string: its characters in sequence. -/
def Regex.str : List Char → Regex
  | [] => .eps
  | c :: cs => .seq (.lit c) (Regex.str cs)

/-- Concatenation of a list of expressions. -/
def Regex.cat : List Regex → Regex
  | [] => .eps
  | r :: rs => .seq r (Regex.cat rs)

/-- The class `\s` of Go regexp syntax: `[\t\n\f\r ]`. -/
def isSpaceClass (c : Char) : Bool :=
  c == '\t' || c == '\n' || c == Char.ofNat 12 || c == '\r' || c == ' '

/-- The class `\w` of Go regexp syntax: `[0-9A-Za-z_]`. -/
def isWordClass (c : Char) : Bool :=
  ('0' ≤ c && c ≤ '9') || ('A' ≤ c && c ≤ 'Z') || ('a' ≤ c && c ≤ 'z') || c == '_'

/-- The class `[\w-]`. -/
def isWordOrHyphen (c : Char) : Bool :=
  isWordClass c || c == '-'

/-- The class `.` without the `s` flag: any character but a newline. -/
def isAnyNotNL (c : Char) : Bool :=
  !(c == '\n')

/-- Index of the capturing group called `name`, as `Regexp.SubexpIndex`. -/
def Regex.SubexpIndex : Regex → String → Option Nat
  | .eps, _ => none
  | .bol, _ => none
  | .chr _, _ => none
  | .plus _, _ => none
  | .seq a b, name => (a.SubexpIndex name).orElse (fun _ => b.SubexpIndex name)
  | .alt a b, name => (a.SubexpIndex name).orElse (fun _ => b.SubexpIndex name)
  | .opt a, name => a.SubexpIndex name
  | .group i n a, name => if n = name then some i else a.SubexpIndex name

/-- Text captured by group `i`; the empty string for a group that took no part
in the match. -/
def Caps.get (caps : Caps) (i : Nat) : List Char :=
  match caps.lookup i with
  | some t => t
  | none => []

/-- One attempt of `r` at offset `pos`, the text from there on being `s`. -/
def Regex.matchAt (r : Regex) (pos : Nat) (s : List Char) : Option Caps :=
  r.run pos s [] (fun _ _ caps => some caps)

/-- The search of `FindStringSubmatch`: start offsets are tried from the left
and the first offset at which the pattern matches wins; `none` is Go's `nil`. -/
def Regex.findFrom (r : Regex) : Nat → List Char → Option Caps
  | pos, [] => r.matchAt pos []
  | pos, c :: cs =>
    (r.matchAt pos (c :: cs)).orElse (fun _ => Regex.findFrom r (pos + 1) cs)

/-- `regex.FindStringSubmatch(s)`. -/
def Regex.FindStringSubmatch (r : Regex) (s : List Char) : Option Caps :=
  r.findFrom 0 s

/-! ## The remote identity parser -/

/-- The value of `protocolFormat`: `(?:(https://)|(ssh://))?`. -/
def protocolFormat : Regex :=
  .opt (.alt (.group 1 "" (.str "https://".data)) (.group 2 "" (.str "ssh://".data)))

/-- The value of `userFormat`: `(git@)?`. -/
def userFormat : Regex :=
  .opt (.group 3 "" (.str "git@".data))

/-- The value of `repoFormat`:
`github.com(/|:)(?P<repoOwner>\w+)/(?P<repoName>[\w-]+)`; the dot of
`github.com` is not escaped in the source and stands for any character. -/
def repoFormat : Regex :=
  .cat [.str "github".data, .chr isAnyNotNL, .str "com".data,
        .group 4 "" (.alt (.lit '/') (.lit ':')),
        .group 5 "repoOwner" (.plus isWordClass),
        .lit '/',
        .group 6 "repoName" (.plus isWordOrHyphen)]

/-- The value of `suffixFormat`: `(.git)?`, its dot unescaped as well. -/
def suffixFormat : Regex :=
  .opt (.group 7 "" (.seq (.chr isAnyNotNL) (.str "git".data)))

/-- The value of `regexFormat`, compiled:
`^origin\s+%s%s%s%s \(push\)` with the four formats spliced in. -/
def regexFormat : Regex :=
  .cat [.bol, .str "origin".data, .plus isSpaceClass,
        protocolFormat, userFormat, repoFormat, suffixFormat,
        .str " (push)".data]

/-- Character-level body of `getRepoDetailsFromRemote`. -/
def getRepoDetailsChars (remote : List Char) : List Char × List Char × Bool :=
  match regexFormat.FindStringSubmatch remote with
  | some caps =>
    match regexFormat.SubexpIndex "repoOwner", regexFormat.SubexpIndex "repoName" with
    | some repoOwnerIndex, some repoNameIndex =>
      (caps.get repoOwnerIndex, caps.get repoNameIndex, true)
    | _, _ => ([], [], false)
  | none => ([], [], false)

/-- The function `getRepoDetailsFromRemote` of config.go. -/
def getRepoDetailsFromRemote (remote : String) : String × String × Bool :=
  match getRepoDetailsChars remote.data with
  | (o, n, m) => (String.mk o, String.mk n, m)

/-! ## Data model -/

/-- The struct `RepoConfig`. -/
structure RepoConfig where
  GitHubRepoOwner : String
  GitHubRepoName : String
  RequireChecks : Bool
  RequireApproval : Bool
  GitHubRemote : String
  GitHubBranch : String
  deriving DecidableEq

/-- The struct `UserConfig`; `RunCount` is a Go `int`, kept as an integer and
wrapped to 64 bits by the arithmetic on it. -/
structure UserConfig where
  ShowPRLink : Bool
  LogGitCommands : Bool
  LogGitHubCalls : Bool
  StatusBitsHeader : Bool
  Stargazer : Bool
  RunCount : Int
  deriving DecidableEq

/-- The struct `Config`. -/
structure Config where
  Repo : RepoConfig
  User : UserConfig
  deriving DecidableEq

/-- The function `EmptyConfig`: both records hold Go zero values. -/
def EmptyConfig : Config :=
  { Repo := { GitHubRepoOwner := "", GitHubRepoName := "", RequireChecks := false,
              RequireApproval := false, GitHubRemote := "", GitHubBranch := "" },
    User := { ShowPRLink := false, LogGitCommands := false, LogGitHubCalls := false,
              StatusBitsHeader := false, Stargazer := false, RunCount := 0 } }

/-- Smallest value of a 64-bit Go `int`. -/
def minInt : Int := -9223372036854775808

/-- Largest value of a 64-bit Go `int`. -/
def maxInt : Int := 9223372036854775807

/-- Two's-complement wrap of an integer to 64 bits. -/
def wrapInt (x : Int) : Int :=
  (x + 9223372036854775808) % 18446744073709551616 - 9223372036854775808

/-- Go `int` addition. -/
def intAdd (a b : Int) : Int := wrapInt (a + b)

/-! ## The environment of a run -/

/-- Outcome of `gitcmd.Git("remote -v", &output)`: the output, or an error. -/
inductive GitResult where
  | ok (output : String)
  | err (msg : String)
  deriving DecidableEq

/-- A persisted file: a key/value mapping over the keys that the `yaml` tags of
`RepoConfig` and `UserConfig` declare; `none` is a key the file does not hold. -/
structure YamlDoc where
  githubRepoOwner : Option String
  githubRepoName : Option String
  requireChecks : Option Bool
  requireApproval : Option Bool
  githubRemote : Option String
  githubBranch : Option String
  showPRLink : Option Bool
  logGitCommands : Option Bool
  logGitHubCalls : Option Bool
  statusBitsHeader : Option Bool
  stargazer : Option Bool
  runcount : Option Int
  deriving DecidableEq

/-- A file without any key. -/
def YamlDoc.empty : YamlDoc :=
  { githubRepoOwner := none, githubRepoName := none, requireChecks := none,
    requireApproval := none, githubRemote := none, githubBranch := none,
    showPRLink := none, logGitCommands := none, logGitHubCalls := none,
    statusBitsHeader := none, stargazer := none, runcount := none }

/-- Outcome of `os.UserHomeDir()`: the directory, or an error. -/
inductive DirResult where
  | ok (dir : String)
  | err (msg : String)
  deriving DecidableEq

/-- What a run of `ParseConfig` reads from and writes to: the outcome of the
remote listing, the working-tree root that `gitcmd.RootDir()` returns, the
outcome of `os.UserHomeDir()`, the path library (`cleanJoin dir name` is the
value of `filepath.Clean(path.Join(dir, name))`, left open here), and the
files, by path (`none` for a file that does not exist). Files that exist are
well-formed. -/
structure World where
  gitRemote : GitResult
  rootDir : String
  homeDir : DirResult
  cleanJoin : String → String → String
  files : String → Option YamlDoc

/-- Content of the file at `p`. -/
def World.read (w : World) (p : String) : Option YamlDoc :=
  w.files p

/-- The world after the file at `p` has been created or overwritten with `d`. -/
def World.write (w : World) (p : String) (d : YamlDoc) : World :=
  { w with files := fun q => if q = p then some d else w.files q }

/-- The function `RepoConfigFilePath`: `.spr.yml` in the working-tree root. -/
def RepoConfigFilePath (w : World) : String :=
  w.cleanJoin w.rootDir ".spr.yml"

/-- The function `UserConfigFilePath`: `.spr.yml` in the home directory;
`check` panics when the home directory cannot be determined. It is the path
of the repository file when the home directory is the working-tree root. -/
def UserConfigFilePath (w : World) : Except String String :=
  match w.homeDir with
  | .err e => .error e
  | .ok dir => .ok (w.cleanJoin dir ".spr.yml")

/-! ## Sources and the layered loader -/

/-- The record of a `Config` that `LoadSources` is given as its target. -/
inductive Target where
  | repo
  | user
  deriving DecidableEq

/-- Result of applying a source: the configuration and the world afterwards,
or a panic (with the world as it was left). -/
inductive Step where
  | ok (cfg : Config) (w : World)
  | panic (err : String) (w : World)

/-- A source: its `Load` applied to a target. -/
abbrev Source := Target → Config → World → Step

/-- Modelled from the spec: `rake.LoadSources`, of the library `rake` outside
this repository. It applies each source to the target in list order, with no
rollback; a failure stops the sequence and is passed on to the caller. -/
def LoadSources (target : Target) : List Source → Config → World → Step
  | [], cfg, w => .ok cfg w
  | src :: rest, cfg, w =>
    match src target cfg w with
    | .ok cfg1 w1 => LoadSources target rest cfg1 w1
    | .panic e w1 => .panic e w1

/-- Modelled from the spec: `rake.DefaultSource`, of the library `rake`. It
sets every field that declares a default to that default, unconditionally; the
defaults are the `default` tags of the two structs in config.go. -/
def DefaultSource : Source := fun target cfg w =>
  match target with
  | .repo =>
    .ok { cfg with Repo := { cfg.Repo with RequireChecks := true, RequireApproval := true,
                                            GitHubRemote := "origin",
                                            GitHubBranch := "master" } } w
  | .user =>
    .ok { cfg with User := { ShowPRLink := true, LogGitCommands := false,
                             LogGitHubCalls := false, StatusBitsHeader := true,
                             Stargazer := false, RunCount := 0 } } w

/-- Fields of `d` laid over a `RepoConfig`: a key that the file holds wins, a
key that it does not hold leaves the field as it was. -/
def RepoConfig.overlay (c : RepoConfig) (d : YamlDoc) : RepoConfig :=
  { GitHubRepoOwner := d.githubRepoOwner.getD c.GitHubRepoOwner,
    GitHubRepoName := d.githubRepoName.getD c.GitHubRepoName,
    RequireChecks := d.requireChecks.getD c.RequireChecks,
    RequireApproval := d.requireApproval.getD c.RequireApproval,
    GitHubRemote := d.githubRemote.getD c.GitHubRemote,
    GitHubBranch := d.githubBranch.getD c.GitHubBranch }

/-- Fields of `d` laid over a `UserConfig`. -/
def UserConfig.overlay (c : UserConfig) (d : YamlDoc) : UserConfig :=
  { ShowPRLink := d.showPRLink.getD c.ShowPRLink,
    LogGitCommands := d.logGitCommands.getD c.LogGitCommands,
    LogGitHubCalls := d.logGitHubCalls.getD c.LogGitHubCalls,
    StatusBitsHeader := d.statusBitsHeader.getD c.StatusBitsHeader,
    Stargazer := d.stargazer.getD c.Stargazer,
    RunCount := d.runcount.getD c.RunCount }

/-- Serialised `RepoConfig`: every one of its six keys, with the field's value. -/
def RepoConfig.encode (c : RepoConfig) : YamlDoc :=
  { YamlDoc.empty with
    githubRepoOwner := some c.GitHubRepoOwner, githubRepoName := some c.GitHubRepoName,
    requireChecks := some c.RequireChecks, requireApproval := some c.RequireApproval,
    githubRemote := some c.GitHubRemote, githubBranch := some c.GitHubBranch }

/-- Serialised `UserConfig`: every one of its six keys, with the field's value. -/
def UserConfig.encode (c : UserConfig) : YamlDoc :=
  { YamlDoc.empty with
    showPRLink := some c.ShowPRLink, logGitCommands := some c.LogGitCommands,
    logGitHubCalls := some c.LogGitHubCalls, statusBitsHeader := some c.StatusBitsHeader,
    stargazer := some c.Stargazer, runcount := some c.RunCount }

/-- Modelled from the spec: `rake.YamlFileSource`, of the library `rake`. If
the file exists it is decoded and its fields are laid over the target; a file
that does not exist is nothing to overlay. -/
def YamlFileSource (path : String) : Source := fun target cfg w =>
  match w.read path with
  | none => .ok cfg w
  | some d =>
    match target with
    | .repo => .ok { cfg with Repo := cfg.Repo.overlay d } w
    | .user => .ok { cfg with User := cfg.User.overlay d } w

/-- Modelled from the spec: `rake.YamlFileWriter`, of the library `rake`. It
serialises the current state of the target and persists it at the path,
creating or overwriting the file. -/
def YamlFileWriter (path : String) : Source := fun target cfg w =>
  match target with
  | .repo => .ok cfg (w.write path cfg.Repo.encode)
  | .user => .ok cfg (w.write path cfg.User.encode)

/-! ## The remote-inference source -/

/-- Pieces of a text between occurrences of `sep`, as `strings.Split` returns
them for a one-character separator: one piece more than there are separators. -/
def splitChars (sep : Char) : List Char → List (List Char)
  | [] => [[]]
  | c :: cs =>
    if c = sep then [] :: splitChars sep cs
    else
      match splitChars sep cs with
      | [] => [[c]]
      | l :: ls => (c :: l) :: ls

/-- The call `strings.Split(s, sep)` for a one-character separator. -/
def strings.Split (s : String) (sep : Char) : List String :=
  (splitChars sep s.data).map String.mk

/-- The loop of `remoteSource.Load` over the lines: the first line that the
parser matches sets owner and name, and the loop breaks. -/
def remoteSource.loadLines (cfg : Config) : List String → Config
  | [] => cfg
  | line :: lines =>
    match getRepoDetailsFromRemote line with
    | (repoOwner, repoName, true) =>
      { cfg with Repo := { cfg.Repo with GitHubRepoOwner := repoOwner,
                                          GitHubRepoName := repoName } }
    | (_, _, false) => remoteSource.loadLines cfg lines

/-- The method `remoteSource.Load`. Its argument is not used; it writes to the
`Config` it was built with, whose `Repo` is the target of the loader. -/
def remoteSource.Load : Source := fun _ cfg w =>
  match w.gitRemote with
  | .err e => .panic e w
  | .ok output => .ok (remoteSource.loadLines cfg (strings.Split output '\n')) w

/-- The function `GitHubRemoteSource`. -/
def GitHubRemoteSource : Source := remoteSource.Load

/-! ## The resolver -/

/-- Result of a run of `ParseConfig`: it returns a configuration, or it ends
the process with `os.Exit(code)` after printing `stdout`, or it panics. -/
inductive Outcome where
  | returned (cfg : Config)
  | exited (code : Nat) (stdout : String)
  | panicked (err : String)
  deriving DecidableEq

/-- The two checks of `ParseConfig` after the repository sources have run:
the exit code and the line printed, or `none` when the run goes on. -/
def validateRepo (repo : RepoConfig) : Option (Nat × String) :=
  if repo.GitHubRepoOwner = "" then
    some (3, "unable to auto configure repository owner - must be set manually in .spr.yml\n")
  else if repo.GitHubRepoName = "" then
    some (4, "unable to auto configure repository name - must be set manually in .spr.yml\n")
  else none

/-- The first call of `ParseConfig`: the repository sources, in order. -/
def loadRepoSources (w : World) : Step :=
  LoadSources .repo
    [DefaultSource, GitHubRemoteSource,
     YamlFileSource (RepoConfigFilePath w), YamlFileWriter (RepoConfigFilePath w)]
    EmptyConfig w

/-- The function `ParseConfig`, with the world it leaves behind. -/
def ParseConfig (w : World) : Outcome × World :=
  match loadRepoSources w with
  | .panic e w1 => (.panicked e, w1)
  | .ok cfg1 w1 =>
    match validateRepo cfg1.Repo with
    | some (code, out) => (.exited code out, w1)
    | none =>
      match UserConfigFilePath w1 with
      | .error e => (.panicked e, w1)
      | .ok userPath =>
        match LoadSources .user [DefaultSource, YamlFileSource userPath] cfg1 w1 with
        | .panic e w2 => (.panicked e, w2)
        | .ok cfg2 w2 =>
          let cfg3 : Config :=
            { cfg2 with User := { cfg2.User with RunCount := intAdd cfg2.User.RunCount 1 } }
          match LoadSources .user [YamlFileWriter userPath] cfg3 w2 with
          | .panic e w3 => (.panicked e, w3)
          | .ok cfg4 w3 => (.returned cfg4, w3)

/-- The world after `k` runs of `ParseConfig` in succession, each on the files
the one before left behind. -/
def resolutions : Nat → World → World
  | 0, w => w
  | k + 1, w => resolutions k (ParseConfig w).2

/-! ## Auxiliary notions used in the statements -/

/-- The attempt `o` succeeds with a capture table that satisfies `Q`. -/
def Yields (Q : Caps → Prop) (o : Option Caps) : Prop :=
  ∃ r, o = some r ∧ Q r

/-- The three scheme choices of a remote URL. -/
inductive Scheme where
  | none
  | https
  | ssh
  deriving DecidableEq

/-- Text of a scheme in a URL. -/
def Scheme.text : Scheme → String
  | .none => ""
  | .https => "https://"
  | .ssh => "ssh://"

/-- Separator after the host that goes with a scheme: `/` when a scheme is
present, `:` when there is none. -/
def Scheme.separator : Scheme → String
  | .none => ":"
  | .https => "/"
  | .ssh => "/"

/-- A remote URL: scheme, optional `git@`, the host `github.com`, a separator,
`owner/repo`, optional `.git`. -/
def remoteURL (scheme : Scheme) (gitUser : Bool) (sep owner repo : String)
    (dotGit : Bool) : String :=
  scheme.text ++ (if gitUser then "git@" else "") ++ "github.com" ++ sep ++ owner ++ "/"
    ++ repo ++ (if dotGit then ".git" else "")

/-- A line of a remote listing: name, whitespace, URL, direction in brackets. -/
def remoteLine (name ws url direction : String) : String :=
  name ++ ws ++ url ++ " (" ++ direction ++ ")"

/-- Letters (the ASCII letters), digits and underscores. -/
def isLetterDigitUnderscore (c : Char) : Bool :=
  c.isAlpha || c.isDigit || c == '_'

/-- A line of the form `<name><whitespace><url> (<direction>)`, name and url
free of whitespace (the characters of the class `\s`), that is a fetch line or
the line of a remote other than `origin`. -/
def OtherRemoteLine (line : String) : Prop :=
  ∃ name ws url direction : String,
    line = remoteLine name ws url direction
    ∧ (∀ c ∈ name.data, isSpaceClass c = false)
    ∧ ws ≠ "" ∧ (∀ c ∈ ws.data, isSpaceClass c = true)
    ∧ (∀ c ∈ url.data, isSpaceClass c = false)
    ∧ (direction = "fetch" ∨ name ≠ "origin")

/-- A listing with a fetch line and two push lines for `origin`. -/
def twoPushListing : String :=
  "origin git@github.com:acme/widgets (fetch)\n"
    ++ "origin git@github.com:acme/widgets (push)\n"
    ++ "origin https://github.com/other/thing (push)\n"

/-- A listing without a push line for `origin`. -/
def fetchOnlyListing : String :=
  "origin git@github.com:acme/widgets (fetch)\nupstream https://github.com/acme/widgets (push)\n"

/-- The accepted shape of a line as the specification words it: `origin`,
whitespace, an optional scheme, an optional `git@`, the literal host
`github.com`, the separator that goes with the scheme (`/` when a scheme is
present, `:` when none is), `<owner>/<repo>`, an optional `.git`, ` (push)`. -/
def AcceptedShape (line : String) : Prop :=
  ∃ (scheme : Scheme) (gitUser dotGit : Bool) (ws owner repo : String),
    ws ≠ "" ∧ (∀ c ∈ ws.data, isSpaceClass c = true)
    ∧ line = remoteLine "origin" ws
        (remoteURL scheme gitUser scheme.separator owner repo dotGit) "push"

/-- The repository sources of `ParseConfig` before the writer:
[Default, Remote-inference, File-read]. -/
def loadRepoBeforeWrite (w : World) : Step :=
  LoadSources .repo
    [DefaultSource, GitHubRemoteSource, YamlFileSource (RepoConfigFilePath w)]
    EmptyConfig w

/-- The value a file gives a key: the value it holds, or `dflt` when the file,
or the key in it, is absent. -/
def keyOr {α : Type} (f : Option YamlDoc) (key : YamlDoc → Option α) (dflt : α) : α :=
  match f with
  | none => dflt
  | some d => (key d).getD dflt

/-- The user record that a file gives: for every key the value the file
holds, and the default that config.go declares where the file, or the key in
it, is absent. -/
def userValues (f : Option YamlDoc) : UserConfig :=
  { ShowPRLink := keyOr f (fun d => d.showPRLink) true,
    LogGitCommands := keyOr f (fun d => d.logGitCommands) false,
    LogGitHubCalls := keyOr f (fun d => d.logGitHubCalls) false,
    StatusBitsHeader := keyOr f (fun d => d.statusBitsHeader) true,
    Stargazer := keyOr f (fun d => d.stargazer) false,
    RunCount := keyOr f (fun d => d.runcount) 0 }

/-- The run count that the file at `path` holds: the value of its `runcount`
key, and 0 when the file, or the key in it, is absent. -/
def fileRunCount (w : World) (path : String) : Int :=
  keyOr (w.read path) (fun d => d.runcount) 0

/-- The file holds explicit values for all six keys of `RepoConfig`, and they
are the fields of `r`. -/
def YamlDoc.holdsRepo (d : YamlDoc) (r : RepoConfig) : Prop :=
  d.githubRepoOwner = some r.GitHubRepoOwner ∧ d.githubRepoName = some r.GitHubRepoName
  ∧ d.requireChecks = some r.RequireChecks ∧ d.requireApproval = some r.RequireApproval
  ∧ d.githubRemote = some r.GitHubRemote ∧ d.githubBranch = some r.GitHubBranch

/-- A run in a fresh clone at `/work/widgets`, the home directory being
`/home/u`: the listing has a push line for `origin`, no file exists yet. -/
def freshWorld : World :=
  { gitRemote := .ok
      "origin git@github.com:acme/widgets (fetch)\norigin git@github.com:acme/widgets (push)\n",
    rootDir := "/work/widgets",
    homeDir := .ok "/home/u",
    cleanJoin := fun dir name => dir ++ "/" ++ name,
    files := fun _ => none }

/-- A run without any remote and without files. -/
def noRemoteWorld : World :=
  { freshWorld with gitRemote := .ok "" }

/-- A run in which `git remote -v` fails. -/
def gitFailsWorld : World :=
  { freshWorld with gitRemote := .err "exit status 128" }

/-- A run whose user file holds the largest run count. -/
def lastCountWorld : World :=
  freshWorld.write "/home/u/.spr.yml"
    { YamlDoc.empty with runcount := some 9223372036854775807 }

/-- A run whose repository file holds all six keys, with an owner and a name
other than those of the remote. -/
def fullFileWorld : World :=
  freshWorld.write "/work/widgets/.spr.yml"
    { YamlDoc.empty with
      githubRepoOwner := some "corp", githubRepoName := some "tool",
      requireChecks := some false, requireApproval := some false,
      githubRemote := some "upstream", githubBranch := some "main" }

/-- A run whose user file holds run count 41 and sets `stargazer`. -/
def countedWorld : World :=
  freshWorld.write "/home/u/.spr.yml"
    { YamlDoc.empty with stargazer := some true, runcount := some 41 }

/-- A run in a working tree whose root is the home directory `/home/u`, so
that `RepoConfigFilePath` and `UserConfigFilePath` are the same path
`/home/u/.spr.yml`; the file there holds run count 41. -/
def homeRootWorld : World :=
  { countedWorld with rootDir := "/home/u" }

/-! ## Lemmas on the matcher -/

theorem orElse_eq_some {α : Type} (a : Option α) (f : Unit → Option α) (r : α)
    (h : a.orElse f = some r) : a = some r ∨ (a = none ∧ f () = some r) := by
  cases a with
  | none => right; exact ⟨rfl, by simpa [Option.orElse] using h⟩
  | some x => left; simpa [Option.orElse] using h

theorem run_chr_some (p : Char → Bool) (pos : Nat) (s : List Char) (caps : Caps)
    (k : Nat → List Char → Caps → Option Caps) (r : Caps)
    (h : (Regex.chr p).run pos s caps k = some r) :
    ∃ c cs, s = c :: cs ∧ p c = true ∧ k (pos + 1) cs caps = some r := by
  cases s with
  | nil => simp [Regex.run] at h
  | cons c cs =>
    by_cases hp : p c = true
    · exact ⟨c, cs, rfl, hp, by simpa [Regex.run, hp] using h⟩
    · simp [Regex.run, hp] at h

theorem run_str_append (l t : List Char) (pos : Nat) (caps : Caps)
    (k : Nat → List Char → Caps → Option Caps) :
    (Regex.str l).run pos (l ++ t) caps k = k (pos + l.length) t caps := by
  induction l generalizing pos with
  | nil => simp [Regex.str, Regex.run]
  | cons c cs ih =>
    simp [Regex.str, Regex.run, Regex.lit, ih]
    congr 1; omega

theorem run_str_some (l : List Char) (pos : Nat) (s : List Char) (caps : Caps)
    (k : Nat → List Char → Caps → Option Caps) (r : Caps)
    (h : (Regex.str l).run pos s caps k = some r) :
    ∃ t, s = l ++ t ∧ k (pos + l.length) t caps = some r := by
  induction l generalizing pos s with
  | nil => exact ⟨s, rfl, by simpa [Regex.str, Regex.run] using h⟩
  | cons c cs ih =>
    simp only [Regex.str, Regex.run, Regex.lit] at h
    cases s with
    | nil => simp at h
    | cons d ds =>
      by_cases hd : d = c
      · subst hd
        simp at h
        obtain ⟨t, rfl, ht⟩ := ih _ _ h
        refine ⟨t, rfl, ?_⟩
        rw [← ht]; congr 1; simp; omega
      · simp [hd] at h

theorem starLoop_some (p : Char → Bool) (k : Nat → List Char → Option Caps)
    (pos : Nat) (s : List Char) (r : Caps) (h : starLoop p k pos s = some r) :
    ∃ run rest, s = run ++ rest ∧ (∀ c ∈ run, p c = true) ∧
      k (pos + run.length) rest = some r := by
  induction s generalizing pos with
  | nil => exact ⟨[], [], rfl, by simp, by simpa [starLoop] using h⟩
  | cons c cs ih =>
    by_cases hp : p c = true
    · simp only [starLoop, hp, if_true] at h
      rcases orElse_eq_some _ _ _ h with h1 | ⟨_, h2⟩
      · obtain ⟨run, rest, rfl, hall, hk⟩ := ih _ h1
        refine ⟨c :: run, rest, rfl, ?_, ?_⟩
        · intro x hx
          rcases List.mem_cons.mp hx with rfl | hx
          · exact hp
          · exact hall x hx
        · rw [← hk]; congr 1; simp; omega
      · exact ⟨[], c :: cs, rfl, by simp, by simpa using h2⟩
    · simp only [starLoop, hp] at h
      exact ⟨[], c :: cs, rfl, by simp, by simpa using h⟩

theorem run_plus_some (p : Char → Bool) (pos : Nat) (s : List Char) (caps : Caps)
    (k : Nat → List Char → Caps → Option Caps) (r : Caps)
    (h : (Regex.plus p).run pos s caps k = some r) :
    ∃ run rest, s = run ++ rest ∧ run ≠ [] ∧ (∀ c ∈ run, p c = true) ∧
      k (pos + run.length) rest caps = some r := by
  cases s with
  | nil => simp [Regex.run] at h
  | cons c cs =>
    by_cases hp : p c = true
    · simp only [Regex.run, hp, if_true] at h
      obtain ⟨run, rest, rfl, hall, hk⟩ := starLoop_some _ _ _ _ _ h
      refine ⟨c :: run, rest, rfl, by simp, ?_, ?_⟩
      · intro x hx
        rcases List.mem_cons.mp hx with rfl | hx
        · exact hp
        · exact hall x hx
      · rw [← hk]; congr 1; simp; omega
    · simp [Regex.run, hp] at h

theorem matchAt_succ_none (pos : Nat) (s : List Char) :
    regexFormat.matchAt (pos + 1) s = none := by
  simp [Regex.matchAt, regexFormat, Regex.cat, Regex.run]

theorem findFrom_succ_none (pos : Nat) (s : List Char) :
    regexFormat.findFrom (pos + 1) s = none := by
  induction s generalizing pos with
  | nil => simp [Regex.findFrom, matchAt_succ_none]
  | cons c cs ih => simp [Regex.findFrom, matchAt_succ_none, ih, Option.orElse]

theorem FindStringSubmatch_eq_matchAt (s : List Char) :
    regexFormat.FindStringSubmatch s = regexFormat.matchAt 0 s := by
  cases s with
  | nil => simp [Regex.FindStringSubmatch, Regex.findFrom]
  | cons c cs =>
    simp only [Regex.FindStringSubmatch, Regex.findFrom, findFrom_succ_none]
    cases regexFormat.matchAt 0 (c :: cs) <;> simp [Option.orElse]

theorem orElse_none_left {α : Type} (a : Option α) (f : Unit → Option α)
    (h : a = none) : a.orElse f = f () := by
  subst h; rfl

theorem take_sub_append (pos : Nat) (l t : List Char) :
    (l ++ t).take (pos + l.length - pos) = l := by
  have : pos + l.length - pos = l.length := by omega
  rw [this]; simp

theorem run_seq (a b : Regex) (pos : Nat) (s : List Char) (caps : Caps)
    (k : Nat → List Char → Caps → Option Caps) :
    (Regex.seq a b).run pos s caps k
      = a.run pos s caps (fun pos1 s1 caps1 => b.run pos1 s1 caps1 k) := rfl

theorem run_eps (pos : Nat) (s : List Char) (caps : Caps)
    (k : Nat → List Char → Caps → Option Caps) :
    Regex.eps.run pos s caps k = k pos s caps := rfl

theorem run_bol (pos : Nat) (s : List Char) (caps : Caps)
    (k : Nat → List Char → Caps → Option Caps) :
    Regex.bol.run pos s caps k = if pos = 0 then k pos s caps else none := rfl

theorem run_alt (a b : Regex) (pos : Nat) (s : List Char) (caps : Caps)
    (k : Nat → List Char → Caps → Option Caps) :
    (Regex.alt a b).run pos s caps k
      = (a.run pos s caps k).orElse (fun _ => b.run pos s caps k) := rfl

theorem run_opt (a : Regex) (pos : Nat) (s : List Char) (caps : Caps)
    (k : Nat → List Char → Caps → Option Caps) :
    (Regex.opt a).run pos s caps k
      = (a.run pos s caps k).orElse (fun _ => k pos s caps) := rfl

theorem run_group (i : Nat) (n : String) (a : Regex) (pos : Nat) (s : List Char) (caps : Caps)
    (k : Nat → List Char → Caps → Option Caps) :
    (Regex.group i n a).run pos s caps k
      = a.run pos s caps
          (fun pos1 s1 caps1 => k pos1 s1 ((i, s.take (pos1 - pos)) :: caps1)) := rfl


theorem protocolFormat_some (pos : Nat) (s : List Char) (caps : Caps)
    (k : Nat → List Char → Caps → Option Caps) (r : Caps)
    (h : protocolFormat.run pos s caps k = some r) :
    ∃ scheme t pos1 caps1, s = scheme ++ t
      ∧ (scheme = [] ∨ scheme = "https://".data ∨ scheme = "ssh://".data)
      ∧ k pos1 t caps1 = some r := by
  unfold protocolFormat at h
  rw [run_opt, run_alt, run_group, run_group] at h
  rcases orElse_eq_some _ _ _ h with h1 | ⟨_, h1⟩
  · rcases orElse_eq_some _ _ _ h1 with h2 | ⟨_, h2⟩
    · obtain ⟨t, rfl, hk⟩ := run_str_some _ _ _ _ _ _ h2
      exact ⟨_, t, _, _, rfl, Or.inr (Or.inl rfl), hk⟩
    · obtain ⟨t, rfl, hk⟩ := run_str_some _ _ _ _ _ _ h2
      exact ⟨_, t, _, _, rfl, Or.inr (Or.inr rfl), hk⟩
  · exact ⟨[], s, _, _, rfl, Or.inl rfl, h1⟩

theorem userFormat_some (pos : Nat) (s : List Char) (caps : Caps)
    (k : Nat → List Char → Caps → Option Caps) (r : Caps)
    (h : userFormat.run pos s caps k = some r) :
    ∃ user t pos1 caps1, s = user ++ t
      ∧ (user = [] ∨ user = "git@".data)
      ∧ k pos1 t caps1 = some r := by
  unfold userFormat at h
  rw [run_opt, run_group] at h
  rcases orElse_eq_some _ _ _ h with h1 | ⟨_, h1⟩
  · obtain ⟨t, rfl, hk⟩ := run_str_some _ _ _ _ _ _ h1
    exact ⟨_, t, _, _, rfl, Or.inr rfl, hk⟩
  · exact ⟨[], s, _, _, rfl, Or.inl rfl, h1⟩

theorem repoFormat_some (pos : Nat) (s : List Char) (caps : Caps)
    (k : Nat → List Char → Caps → Option Caps) (r : Caps)
    (h : repoFormat.run pos s caps k = some r) :
    ∃ x sep owner repo t pos1 caps1,
      s = "github".data ++ x :: "com".data ++ sep :: owner ++ '/' :: repo ++ t
      ∧ isAnyNotNL x = true
      ∧ (sep = '/' ∨ sep = ':')
      ∧ owner ≠ [] ∧ (∀ c ∈ owner, isWordClass c = true)
      ∧ repo ≠ [] ∧ (∀ c ∈ repo, isWordOrHyphen c = true)
      ∧ k pos1 t ((6, repo) :: (5, owner) :: caps1) = some r := by
  unfold repoFormat at h
  simp only [Regex.cat, run_seq, run_eps, run_group, run_alt] at h
  obtain ⟨t1, rfl, h1⟩ := run_str_some _ _ _ _ _ _ h
  obtain ⟨x, t2, rfl, hx, h2⟩ := run_chr_some _ _ _ _ _ _ h1
  obtain ⟨t3, rfl, h3⟩ := run_str_some _ _ _ _ _ _ h2
  have hsep : ∃ sep t4, t3 = sep :: t4 ∧ (sep = '/' ∨ sep = ':') ∧
      ∃ pos4 caps4, (Regex.plus isWordClass).run pos4 t4 caps4
        (fun pos1 s1 caps1 =>
          (Regex.lit '/').run pos1 s1 ((5, t4.take (pos1 - pos4)) :: caps1)
            (fun pos2 s2 caps2 =>
              (Regex.plus isWordOrHyphen).run pos2 s2 caps2
                (fun pos3 s3 caps3 => k pos3 s3 ((6, s2.take (pos3 - pos2)) :: caps3))))
        = some r := by
    rcases orElse_eq_some _ _ _ h3 with h4 | ⟨_, h4⟩
    · obtain ⟨c, t4, rfl, hc, h5⟩ := run_chr_some _ _ _ _ _ _ h4
      exact ⟨c, t4, rfl, Or.inl (by simpa using hc), _, _, h5⟩
    · obtain ⟨c, t4, rfl, hc, h5⟩ := run_chr_some _ _ _ _ _ _ h4
      exact ⟨c, t4, rfl, Or.inr (by simpa using hc), _, _, h5⟩
  obtain ⟨sep, t4, rfl, hsepv, pos4, caps4, h5⟩ := hsep
  obtain ⟨owner, t5, rfl, ho0, ho, h6⟩ := run_plus_some _ _ _ _ _ _ h5
  obtain ⟨c, t6, rfl, hc, h7⟩ := run_chr_some _ _ _ _ _ _ h6
  have hc' : c = '/' := by simpa using hc
  subst hc'
  obtain ⟨repo, t7, rfl, hr0, hr, h8⟩ := run_plus_some _ _ _ _ _ _ h7
  rw [take_sub_append, take_sub_append] at h8
  exact ⟨x, sep, owner, repo, t7, _, _, by simp, hx, hsepv, ho0, ho, hr0, hr, h8⟩

theorem suffixFormat_some (pos : Nat) (s : List Char) (caps : Caps)
    (k : Nat → List Char → Caps → Option Caps) (r : Caps)
    (h : suffixFormat.run pos s caps k = some r) :
    ∃ sfx t pos1, s = sfx ++ t
      ∧ ((sfx = [] ∧ k pos1 t caps = some r)
         ∨ (∃ y, isAnyNotNL y = true ∧ sfx = y :: "git".data
              ∧ k pos1 t ((7, sfx) :: caps) = some r)) := by
  unfold suffixFormat at h
  rw [run_opt, run_group, run_seq] at h
  rcases orElse_eq_some _ _ _ h with h1 | ⟨_, h1⟩
  · obtain ⟨y, t1, rfl, hy, h2⟩ := run_chr_some _ _ _ _ _ _ h1
    obtain ⟨t2, rfl, h3⟩ := run_str_some _ _ _ _ _ _ h2
    have e : pos + 1 + "git".data.length - pos = (y :: "git".data).length := by
      simp only [List.length_cons]; omega
    have e2 : y :: ("git".data ++ t2) = (y :: "git".data) ++ t2 := rfl
    rw [e, e2, List.take_left] at h3
    exact ⟨y :: "git".data, t2, _, rfl, Or.inr ⟨y, hy, rfl, h3⟩⟩
  · exact ⟨[], s, _, rfl, Or.inl ⟨rfl, h1⟩⟩

theorem matchAt_shape (s : List Char) (caps : Caps)
    (h : regexFormat.matchAt 0 s = some caps) :
    ∃ ws scheme user x sep owner repo sfx tail,
      s = "origin".data ++ ws ++ scheme ++ user ++ "github".data ++ x :: "com".data
            ++ sep :: owner ++ '/' :: repo ++ sfx ++ " (push)".data ++ tail
      ∧ ws ≠ [] ∧ (∀ c ∈ ws, isSpaceClass c = true)
      ∧ (scheme = [] ∨ scheme = "https://".data ∨ scheme = "ssh://".data)
      ∧ (user = [] ∨ user = "git@".data)
      ∧ isAnyNotNL x = true
      ∧ (sep = '/' ∨ sep = ':')
      ∧ owner ≠ [] ∧ (∀ c ∈ owner, isWordClass c = true)
      ∧ repo ≠ [] ∧ (∀ c ∈ repo, isWordOrHyphen c = true)
      ∧ (sfx = [] ∨ ∃ y, isAnyNotNL y = true ∧ sfx = y :: "git".data)
      ∧ caps.get 5 = owner ∧ caps.get 6 = repo := by
  unfold Regex.matchAt regexFormat at h
  simp only [Regex.cat, run_seq, run_bol, run_eps, if_true] at h
  obtain ⟨t1, rfl, h1⟩ := run_str_some _ _ _ _ _ _ h
  obtain ⟨ws, t2, rfl, hws0, hws, h2⟩ := run_plus_some _ _ _ _ _ _ h1
  obtain ⟨scheme, t3, _, _, rfl, hscheme, h3⟩ := protocolFormat_some _ _ _ _ _ h2
  obtain ⟨user, t4, _, _, rfl, huser, h4⟩ := userFormat_some _ _ _ _ _ h3
  obtain ⟨x, sep, owner, repo, t5, _, caps5, rfl, hx, hsep, ho0, ho, hr0, hr, h5⟩ :=
    repoFormat_some _ _ _ _ _ h4
  obtain ⟨sfx, t6, _, rfl, h6⟩ := suffixFormat_some _ _ _ _ _ h5
  rcases h6 with ⟨rfl, h7⟩ | ⟨y, hy, rfl, h7⟩
  · obtain ⟨tail, rfl, h8⟩ := run_str_some _ _ _ _ _ _ h7
    simp only [Option.some.injEq] at h8
    subst h8
    exact ⟨ws, scheme, user, x, sep, owner, repo, [], tail, by simp, hws0, hws, hscheme,
      huser, hx, hsep, ho0, ho, hr0, hr, Or.inl rfl, by simp [Caps.get, List.lookup],
      by simp [Caps.get, List.lookup]⟩
  · obtain ⟨tail, rfl, h8⟩ := run_str_some _ _ _ _ _ _ h7
    simp only [Option.some.injEq] at h8
    subst h8
    exact ⟨ws, scheme, user, x, sep, owner, repo, y :: "git".data, tail, by simp, hws0, hws,
      hscheme, huser, hx, hsep, ho0, ho, hr0, hr, Or.inr ⟨y, hy, rfl⟩,
      by simp [Caps.get, List.lookup], by simp [Caps.get, List.lookup]⟩
/-! ## The matcher succeeds on lines of the accepted shapes -/

theorem Yields.orElse_left {Q : Caps → Prop} {a : Option Caps} (f : Unit → Option Caps)
    (h : Yields Q a) : Yields Q (a.orElse f) := by
  obtain ⟨r, rfl, hq⟩ := h
  exact ⟨r, rfl, hq⟩

theorem starLoop_greedy (Q : Caps → Prop) (p : Char → Bool)
    (k : Nat → List Char → Option Caps)
    (pos : Nat) (run rest : List Char)
    (hrun : ∀ c ∈ run, p c = true) (hrest : ∀ c t, rest = c :: t → p c = false)
    (hk : ∀ pos1, Yields Q (k pos1 rest)) :
    Yields Q (starLoop p k pos (run ++ rest)) := by
  induction run generalizing pos with
  | nil =>
    cases rest with
    | nil => simpa [starLoop] using hk pos
    | cons c t => simpa [starLoop, hrest c t rfl] using hk pos
  | cons c cs ih =>
    have hc : p c = true := hrun c (by simp)
    simp only [List.cons_append, starLoop, hc, if_true]
    exact Yields.orElse_left _ (ih (pos + 1) (fun x hx => hrun x (by simp [hx])))

theorem run_plus_greedy (Q : Caps → Prop) (p : Char → Bool) (pos : Nat)
    (run rest : List Char) (caps : Caps)
    (k : Nat → List Char → Caps → Option Caps)
    (h0 : run ≠ []) (hrun : ∀ c ∈ run, p c = true)
    (hrest : ∀ c t, rest = c :: t → p c = false)
    (hk : Yields Q (k (pos + run.length) rest caps)) :
    Yields Q ((Regex.plus p).run pos (run ++ rest) caps k) := by
  cases run with
  | nil => exact absurd rfl h0
  | cons c cs =>
    have hc : p c = true := hrun c (by simp)
    simp only [List.cons_append, Regex.run, hc, if_true]
    have hgen : ∀ (P : Nat) (l : List Char), (∀ x ∈ l, p x = true) →
        Yields Q (k (P + l.length) rest caps) →
        Yields Q (starLoop p (fun pos1 s1 => k pos1 s1 caps) P (l ++ rest)) := by
      intro P l
      induction l generalizing P with
      | nil =>
        intro _ h
        cases rest with
        | nil => simpa [starLoop] using h
        | cons d t => simpa [starLoop, hrest d t rfl] using h
      | cons d ds ih =>
        intro hl h
        have hd : p d = true := hl d (by simp)
        simp only [List.cons_append, starLoop, hd, if_true]
        apply Yields.orElse_left
        apply ih (P + 1) (fun x hx => hl x (by simp [hx]))
        have e : P + 1 + ds.length = P + (d :: ds).length := by simp; omega
        rw [e]; exact h
    apply hgen (pos + 1) cs (fun x hx => hrun x (by simp [hx]))
    have e : pos + 1 + cs.length = pos + (c :: cs).length := by simp; omega
    rw [e]; exact hk

theorem run_lit_cons (c : Char) (pos : Nat) (t : List Char) (caps : Caps)
    (k : Nat → List Char → Caps → Option Caps) :
    (Regex.lit c).run pos (c :: t) caps k = k (pos + 1) t caps := by
  simp [Regex.lit, Regex.run]

theorem repoFormat_run (Q : Caps → Prop) (pos : Nat) (sep : Char)
    (owner repo t : List Char) (caps : Caps)
    (k : Nat → List Char → Caps → Option Caps)
    (hsep : sep = '/' ∨ sep = ':')
    (ho0 : owner ≠ []) (ho : ∀ c ∈ owner, isWordClass c = true)
    (hr0 : repo ≠ []) (hr : ∀ c ∈ repo, isWordOrHyphen c = true)
    (ht : ∀ c t1, t = c :: t1 → isWordOrHyphen c = false)
    (hk : ∀ pos1 caps1, Yields Q (k pos1 t ((6, repo) :: (5, owner) :: caps1))) :
    Yields Q
      (repoFormat.run pos ("github.com".data ++ sep :: owner ++ '/' :: repo ++ t) caps k) := by
  unfold repoFormat
  simp only [Regex.cat, run_seq, run_eps, run_group, run_alt]
  have e : "github.com".data ++ sep :: owner ++ '/' :: repo ++ t
      = "github".data ++ ('.' :: ("com".data ++ (sep :: (owner ++ ('/' :: (repo ++ t)))))) := by
    simp
  rw [e, run_str_append]
  have hdot : (Regex.chr isAnyNotNL).run (pos + "github".data.length)
      ('.' :: ("com".data ++ (sep :: (owner ++ ('/' :: (repo ++ t)))))) caps = fun k1 =>
        k1 (pos + "github".data.length + 1)
          ("com".data ++ (sep :: (owner ++ ('/' :: (repo ++ t))))) caps := by
    funext k1; simp [Regex.run, isAnyNotNL]
  rw [hdot]
  simp only []
  rw [run_str_append]
  have hsep' : ∀ (P : Nat) (k1 : Nat → List Char → Caps → Option Caps) (rest : List Char),
      Yields Q (k1 (P + 1) rest caps) →
      Yields Q (((Regex.lit '/').run P (sep :: rest) caps k1).orElse
        (fun _ => (Regex.lit ':').run P (sep :: rest) caps k1)) := by
    intro P k1 rest h1
    rcases hsep with rfl | rfl
    · rw [run_lit_cons]; exact Yields.orElse_left _ h1
    · have : (Regex.lit '/').run P (':' :: rest) caps k1 = none := by
        simp [Regex.lit, Regex.run]
      rw [this, run_lit_cons]; exact h1
  apply hsep'
  apply run_plus_greedy Q _ _ _ _ _ _ ho0 ho
  · intro c t1 hc
    simp only [List.cons.injEq] at hc
    rw [← hc.1]; decide
  rw [take_sub_append, run_lit_cons]
  apply run_plus_greedy Q _ _ _ _ _ _ hr0 hr ht
  rw [take_sub_append]
  exact hk _ _

theorem protocolFormat_run (Q : Caps → Prop) (pos : Nat) (scheme t : List Char) (caps : Caps)
    (k : Nat → List Char → Caps → Option Caps)
    (hscheme : scheme = [] ∨ scheme = "https://".data ∨ scheme = "ssh://".data)
    (ht : ∃ t1, t = 'g' :: t1)
    (hk : ∀ pos1 caps1, Yields Q (k pos1 t caps1)) :
    Yields Q (protocolFormat.run pos (scheme ++ t) caps k) := by
  unfold protocolFormat
  rw [run_opt, run_alt, run_group, run_group]
  rcases hscheme with rfl | rfl | rfl
  · obtain ⟨t1, rfl⟩ := ht
    have h1 : (Regex.str "https://".data).run pos ([] ++ 'g' :: t1) caps
        (fun pos1 s1 caps1 => k pos1 s1 ((1, ([] ++ 'g' :: t1).take (pos1 - pos)) :: caps1))
        = none := by
      simp [Regex.str, Regex.run, Regex.lit]
    have h2 : (Regex.str "ssh://".data).run pos ([] ++ 'g' :: t1) caps
        (fun pos1 s1 caps1 => k pos1 s1 ((2, ([] ++ 'g' :: t1).take (pos1 - pos)) :: caps1))
        = none := by
      simp [Regex.str, Regex.run, Regex.lit]
    rw [h1, h2]
    exact hk _ _
  · apply Yields.orElse_left
    apply Yields.orElse_left
    rw [run_str_append]
    exact hk _ _
  · apply Yields.orElse_left
    have h1 : (Regex.str "https://".data).run pos ("ssh://".data ++ t) caps
        (fun pos1 s1 caps1 => k pos1 s1 ((1, ("ssh://".data ++ t).take (pos1 - pos)) :: caps1))
        = none := by
      simp [Regex.str, Regex.run, Regex.lit]
    rw [h1, orElse_none_left _ _ rfl, run_str_append]
    exact hk _ _

theorem userFormat_run (Q : Caps → Prop) (pos : Nat) (user t : List Char) (caps : Caps)
    (k : Nat → List Char → Caps → Option Caps)
    (huser : user = [] ∨ user = "git@".data)
    (ht : ∃ t1, t = 'g' :: 'i' :: 't' :: 'h' :: t1)
    (hk : ∀ pos1 caps1, Yields Q (k pos1 t caps1)) :
    Yields Q (userFormat.run pos (user ++ t) caps k) := by
  unfold userFormat
  rw [run_opt, run_group]
  rcases huser with rfl | rfl
  · obtain ⟨t1, rfl⟩ := ht
    have h1 : (Regex.str "git@".data).run pos ([] ++ 'g' :: 'i' :: 't' :: 'h' :: t1) caps
        (fun pos1 s1 caps1 =>
          k pos1 s1 ((3, ([] ++ 'g' :: 'i' :: 't' :: 'h' :: t1).take (pos1 - pos)) :: caps1))
        = none := by
      simp [Regex.str, Regex.run, Regex.lit]
    rw [h1]
    exact hk _ _
  · apply Yields.orElse_left
    rw [run_str_append]
    exact hk _ _

theorem suffixFormat_run (Q : Caps → Prop) (pos : Nat) (sfx t : List Char) (caps : Caps)
    (k : Nat → List Char → Caps → Option Caps)
    (hsfx : sfx = [] ∨ sfx = ".git".data)
    (ht : ∃ t1, t = ' ' :: '(' :: t1)
    (hk : ∀ pos1 caps1, (caps1 = caps ∨ ∃ x, caps1 = (7, x) :: caps) →
      Yields Q (k pos1 t caps1)) :
    Yields Q (suffixFormat.run pos (sfx ++ t) caps k) := by
  unfold suffixFormat
  rw [run_opt, run_group, run_seq]
  rcases hsfx with rfl | rfl
  · obtain ⟨t1, rfl⟩ := ht
    have h1 : (Regex.chr isAnyNotNL).run pos ([] ++ ' ' :: '(' :: t1) caps
        (fun pos1 s1 caps1 => (Regex.str "git".data).run pos1 s1 caps1
          (fun pos1 s1 caps1 =>
            k pos1 s1 ((7, ([] ++ ' ' :: '(' :: t1).take (pos1 - pos)) :: caps1)))
        = none := by
      simp [Regex.str, Regex.run, Regex.lit, isAnyNotNL]
    rw [h1]
    exact hk _ _ (Or.inl rfl)
  · apply Yields.orElse_left
    have h1 : ∀ k1, (Regex.chr isAnyNotNL).run pos (".git".data ++ t) caps k1
        = k1 (pos + 1) ("git".data ++ t) caps := by
      intro k1; simp [Regex.run, isAnyNotNL]
    rw [h1, run_str_append]
    exact hk _ _ (Or.inr ⟨_, rfl⟩)

theorem matchAt_accepted (ws scheme user owner repo sfx tail : List Char) (sep : Char)
    (hws0 : ws ≠ []) (hws : ∀ c ∈ ws, isSpaceClass c = true)
    (hscheme : scheme = [] ∨ scheme = "https://".data ∨ scheme = "ssh://".data)
    (huser : user = [] ∨ user = "git@".data)
    (hsep : sep = '/' ∨ sep = ':')
    (ho0 : owner ≠ []) (ho : ∀ c ∈ owner, isWordClass c = true)
    (hr0 : repo ≠ []) (hr : ∀ c ∈ repo, isWordOrHyphen c = true)
    (hsfx : sfx = [] ∨ sfx = ".git".data) :
    ∃ caps, regexFormat.matchAt 0
        ("origin".data ++ ws ++ scheme ++ user ++ "github.com".data ++ sep :: owner
          ++ '/' :: repo ++ sfx ++ " (push)".data ++ tail) = some caps
      ∧ caps.get 5 = owner ∧ caps.get 6 = repo := by
  change Yields (fun caps => caps.get 5 = owner ∧ caps.get 6 = repo) _
  unfold Regex.matchAt regexFormat
  simp only [Regex.cat, run_seq, run_bol, run_eps, if_true]
  have e : "origin".data ++ ws ++ scheme ++ user ++ "github.com".data ++ sep :: owner
          ++ '/' :: repo ++ sfx ++ " (push)".data ++ tail
      = "origin".data ++ (ws ++ (scheme ++ (user ++ ("github.com".data ++ sep :: owner
          ++ '/' :: repo ++ (sfx ++ (" (push)".data ++ tail)))))) := by
    simp
  rw [e, run_str_append]
  apply run_plus_greedy _ _ _ _ _ _ _ hws0 hws
  · intro c t hc
    rcases hscheme with rfl | rfl | rfl <;> rcases huser with rfl | rfl <;>
      · simp at hc
        rw [← hc.1]; decide
  apply protocolFormat_run _ _ _ _ _ _ hscheme
  · rcases huser with rfl | rfl <;> exact ⟨_, rfl⟩
  intro pos1 caps1
  apply userFormat_run _ _ _ _ _ _ huser ⟨_, rfl⟩
  intro pos2 caps2
  apply repoFormat_run _ _ _ _ _ _ _ _ hsep ho0 ho hr0 hr
  · intro c t hc
    rcases hsfx with rfl | rfl <;>
      · simp at hc
        rw [← hc.1]; decide
  intro pos3 caps3
  apply suffixFormat_run _ _ _ _ _ _ hsfx ⟨_, rfl⟩
  intro pos4 caps4 hcaps4
  change Yields _ ((Regex.str " (push)".data).run pos4 (" (push)".data ++ tail) caps4 _)
  rw [run_str_append]
  rcases hcaps4 with rfl | ⟨x, rfl⟩
  · exact ⟨_, rfl, by simp [Caps.get, List.lookup], by simp [Caps.get, List.lookup]⟩
  · exact ⟨_, rfl, by simp [Caps.get, List.lookup], by simp [Caps.get, List.lookup]⟩

/-! ## The remote identity parser: accepted lines -/

theorem isWordClass_eq (c : Char) : isWordClass c = isLetterDigitUnderscore c := by
  simp only [isWordClass, isLetterDigitUnderscore, Char.isAlpha, Char.isUpper, Char.isLower,
    Char.isDigit]
  have h1 : ('0' ≤ c) = (c.val ≥ 48) := rfl
  have h2 : (c ≤ '9') = (c.val ≤ 57) := rfl
  have h3 : ('A' ≤ c) = (c.val ≥ 65) := rfl
  have h4 : (c ≤ 'Z') = (c.val ≤ 90) := rfl
  have h5 : ('a' ≤ c) = (c.val ≥ 97) := rfl
  have h6 : (c ≤ 'z') = (c.val ≤ 122) := rfl
  simp only [h1, h2, h3, h4, h5, h6]
  cases decide (c.val ≥ 48) <;> cases decide (c.val ≤ 57) <;> cases decide (c.val ≥ 65) <;>
    cases decide (c.val ≤ 90) <;> cases decide (c.val ≥ 97) <;> cases decide (c.val ≤ 122) <;>
    cases (c == '_') <;> rfl

theorem SubexpIndex_repoOwner : regexFormat.SubexpIndex "repoOwner" = some 5 := by decide

theorem SubexpIndex_repoName : regexFormat.SubexpIndex "repoName" = some 6 := by decide

theorem getRepoDetailsChars_eq (remote : List Char) :
    getRepoDetailsChars remote =
      match regexFormat.matchAt 0 remote with
      | some caps => (caps.get 5, caps.get 6, true)
      | none => ([], [], false) := by
  unfold getRepoDetailsChars
  rw [FindStringSubmatch_eq_matchAt, SubexpIndex_repoOwner, SubexpIndex_repoName]

theorem String.data_ne_nil {s : String} (h : s ≠ "") : s.data ≠ [] := by
  intro hd
  apply h
  cases s
  simp at hd
  subst hd
  rfl

/-- C1: for every owner that is a non-empty string of letters, digits and
underscores, every repository name that is a non-empty string of letters,
digits, underscores and hyphens, every scheme choice, with or without `git@`,
with or without `.git`, the separator being the one that goes with the scheme,
and every non-empty run of whitespace (the class `\s`) after `origin`, the
parser returns exactly (owner, repo, true) on the push line. -/
theorem getRepoDetailsFromRemote_accepted_shapes (scheme : Scheme) (gitUser dotGit : Bool)
    (ws owner repo : String)
    (hws : ws ≠ "" ∧ ∀ c ∈ ws.data, isSpaceClass c = true)
    (howner : owner ≠ "" ∧ ∀ c ∈ owner.data, isLetterDigitUnderscore c = true)
    (hrepo : repo ≠ "" ∧ ∀ c ∈ repo.data, isLetterDigitUnderscore c = true ∨ c = '-') :
    getRepoDetailsFromRemote
        (remoteLine "origin" ws
          (remoteURL scheme gitUser scheme.separator owner repo dotGit) "push")
      = (owner, repo, true) := by
  have hsch : scheme.text.data = [] ∨ scheme.text.data = "https://".data
      ∨ scheme.text.data = "ssh://".data := by
    cases scheme
    · exact Or.inl rfl
    · exact Or.inr (Or.inl rfl)
    · exact Or.inr (Or.inr rfl)
  have husr : (if gitUser then "git@" else "").data = [] ∨
      (if gitUser then "git@" else "").data = "git@".data := by
    cases gitUser
    · exact Or.inl rfl
    · exact Or.inr rfl
  have hsfx : (if dotGit then ".git" else "").data = [] ∨
      (if dotGit then ".git" else "").data = ".git".data := by
    cases dotGit
    · exact Or.inl rfl
    · exact Or.inr rfl
  have hsep : ∃ sep, scheme.separator.data = [sep] ∧ (sep = '/' ∨ sep = ':') := by
    cases scheme
    · exact ⟨':', rfl, Or.inr rfl⟩
    · exact ⟨'/', rfl, Or.inl rfl⟩
    · exact ⟨'/', rfl, Or.inl rfl⟩
  obtain ⟨sep, hsepd, hsepv⟩ := hsep
  have hr : ∀ c ∈ repo.data, isWordOrHyphen c = true := by
    intro c hc
    rcases hrepo.2 c hc with h | h
    · simp [isWordOrHyphen, isWordClass_eq, h]
    · simp [isWordOrHyphen, h]
  obtain ⟨caps, hm, h5, h6⟩ := matchAt_accepted ws.data scheme.text.data
    (if gitUser then "git@" else "").data owner.data repo.data
    (if dotGit then ".git" else "").data [] sep
    (String.data_ne_nil hws.1) hws.2 hsch husr hsepv (String.data_ne_nil howner.1)
    (fun c hc => by rw [isWordClass_eq]; exact howner.2 c hc)
    (String.data_ne_nil hrepo.1) hr hsfx
  have hline : (remoteLine "origin" ws
      (remoteURL scheme gitUser scheme.separator owner repo dotGit) "push").data
      = "origin".data ++ ws.data ++ scheme.text.data ++ (if gitUser then "git@" else "").data
          ++ "github.com".data ++ sep :: owner.data ++ '/' :: repo.data
          ++ (if dotGit then ".git" else "").data ++ " (push)".data ++ [] := by
    simp only [remoteLine, remoteURL, String.data_append, hsepd]
    simp
  unfold getRepoDetailsFromRemote
  rw [hline, getRepoDetailsChars_eq, hm]
  simp only [h5, h6]

/-- C1, the two lines named in the claim: an https URL with `.git` and an
scp-style URL with `git@` both give ("acme", "widgets", true). -/
theorem getRepoDetailsFromRemote_accepted_shapes_witness :
    getRepoDetailsFromRemote "origin https://github.com/acme/widgets.git (push)"
        = ("acme", "widgets", true)
    ∧ getRepoDetailsFromRemote "origin git@github.com:acme/widgets (push)"
        = ("acme", "widgets", true) :=
  ⟨getRepoDetailsFromRemote_accepted_shapes .https false true " " "acme" "widgets"
      (by decide) (by decide) (by decide),
   getRepoDetailsFromRemote_accepted_shapes .none true false " " "acme" "widgets"
      (by decide) (by decide) (by decide)⟩

/-! ## The remote identity parser: lines that are not matched -/

theorem split_first_unique (p : Char → Bool) (l1 l2 r1 r2 : List Char) (c1 c2 : Char)
    (h1 : ∀ c ∈ l1, p c = true) (h2 : ∀ c ∈ l2, p c = true)
    (hc1 : p c1 = false) (hc2 : p c2 = false)
    (e : l1 ++ c1 :: r1 = l2 ++ c2 :: r2) : l1 = l2 ∧ c1 = c2 ∧ r1 = r2 := by
  induction l1 generalizing l2 with
  | nil =>
    cases l2 with
    | nil => simpa using e
    | cons d ds =>
      simp only [List.nil_append, List.cons_append, List.cons.injEq] at e
      have := h2 d (by simp)
      rw [← e.1, hc1] at this
      exact absurd this (by simp)
  | cons a as ih =>
    cases l2 with
    | nil =>
      simp only [List.nil_append, List.cons_append, List.cons.injEq] at e
      have := h1 a (by simp)
      rw [e.1, hc2] at this
      exact absurd this (by simp)
    | cons d ds =>
      simp only [List.cons_append, List.cons.injEq] at e
      obtain ⟨rfl, e2⟩ := e
      obtain ⟨rfl, rfl, rfl⟩ := ih ds (fun c hc => h1 c (by simp [hc]))
        (fun c hc => h2 c (by simp [hc])) e2
      exact ⟨rfl, rfl, rfl⟩

theorem url_head (scheme user rest : List Char)
    (hscheme : scheme = [] ∨ scheme = "https://".data ∨ scheme = "ssh://".data)
    (huser : user = [] ∨ user = "git@".data) :
    ∃ c r, scheme ++ user ++ "github".data ++ rest = c :: r ∧ isSpaceClass c = false := by
  rcases hscheme with rfl | rfl | rfl <;> rcases huser with rfl | rfl <;>
    exact ⟨_, _, rfl, by decide⟩

theorem url_align (scheme user rest scheme1 user1 rest1 : List Char)
    (hscheme : scheme = [] ∨ scheme = "https://".data ∨ scheme = "ssh://".data)
    (huser : user = [] ∨ user = "git@".data)
    (hscheme1 : scheme1 = [] ∨ scheme1 = "https://".data ∨ scheme1 = "ssh://".data)
    (huser1 : user1 = [] ∨ user1 = "git@".data)
    (e : scheme ++ user ++ "github".data ++ rest = scheme1 ++ user1 ++ "github".data ++ rest1) :
    scheme = scheme1 ∧ user = user1 ∧ rest = rest1 := by
  rcases hscheme with rfl | rfl | rfl <;> rcases huser with rfl | rfl <;>
    rcases hscheme1 with rfl | rfl | rfl <;> rcases huser1 with rfl | rfl <;>
    simp at e <;> simp [e]

theorem first_hyphen (owner : List Char)
    (hall : ∀ c ∈ owner, isWordClass c = true ∨ c = '-') (hmem : '-' ∈ owner) :
    ∃ a b, owner = a ++ '-' :: b ∧ ∀ c ∈ a, isWordClass c = true := by
  induction owner with
  | nil => simp at hmem
  | cons d ds ih =>
    by_cases hd : d = '-'
    · exact ⟨[], ds, by simp [hd], by simp⟩
    · have hmem' : '-' ∈ ds := by
        rcases List.mem_cons.mp hmem with h | h
        · exact absurd h.symm hd
        · exact h
      obtain ⟨a, b, rfl, ha⟩ := ih (fun c hc => hall c (by simp [hc])) hmem'
      refine ⟨d :: a, b, rfl, ?_⟩
      intro c hc
      rcases List.mem_cons.mp hc with rfl | hc
      · rcases hall c (by simp) with h | h
        · exact h
        · exact absurd h hd
      · exact ha c hc

theorem matchAt_hyphen_owner (ws scheme user owner rest : List Char) (sep : Char)
    (hws : ∀ c ∈ ws, isSpaceClass c = true)
    (hscheme : scheme = [] ∨ scheme = "https://".data ∨ scheme = "ssh://".data)
    (huser : user = [] ∨ user = "git@".data)
    (hall : ∀ c ∈ owner, isWordClass c = true ∨ c = '-') (hmem : '-' ∈ owner) :
    regexFormat.matchAt 0
      ("origin".data ++ ws ++ scheme ++ user ++ "github.com".data ++ sep :: owner
        ++ '/' :: rest) = none := by
  cases hm : regexFormat.matchAt 0
      ("origin".data ++ ws ++ scheme ++ user ++ "github.com".data ++ sep :: owner
        ++ '/' :: rest) with
  | none => rfl
  | some caps =>
    exfalso
    obtain ⟨ws1, scheme1, user1, x, sep1, owner1, repo1, sfx1, tail1, e, _, hws1, hscheme1,
      huser1, _, _, _, ho1, _, _, _, _, _⟩ := matchAt_shape _ _ hm
    obtain ⟨a, b, rfl, ha⟩ := first_hyphen owner hall hmem
    obtain ⟨c, r, hcr, hc⟩ := url_head scheme user
      ('.' :: "com".data ++ sep :: (a ++ '-' :: b) ++ '/' :: rest) hscheme huser
    obtain ⟨c1, r1, hcr1, hc1⟩ := url_head scheme1 user1
      (x :: "com".data ++ sep1 :: owner1 ++ '/' :: repo1 ++ sfx1 ++ " (push)".data ++ tail1)
      hscheme1 huser1
    have e2 : ws ++ c :: r = ws1 ++ c1 :: r1 := by
      rw [← hcr, ← hcr1]
      have := @List.append_cancel_left _ "origin".data
        (ws ++ (scheme ++ user ++ "github".data ++
          ('.' :: "com".data ++ sep :: (a ++ '-' :: b) ++ '/' :: rest)))
        (ws1 ++ (scheme1 ++ user1 ++ "github".data ++
          (x :: "com".data ++ sep1 :: owner1 ++ '/' :: repo1 ++ sfx1 ++ " (push)".data
            ++ tail1)))
        (by simpa using e)
      exact this
    obtain ⟨_, _, hr⟩ := split_first_unique isSpaceClass _ _ _ _ _ _ hws hws1 hc hc1 e2
    have e3 := congrArg (fun l => c :: l) hr
    simp only [] at e3
    have hcc : c = c1 := (split_first_unique isSpaceClass _ _ _ _ _ _ hws hws1 hc hc1 e2).2.1
    rw [← hcr] at e3
    rw [hcc, ← hcr1] at e3
    obtain ⟨_, _, e4⟩ := url_align _ _ _ _ _ _ hscheme huser hscheme1 huser1 e3
    simp only [List.cons_append, List.cons.injEq, List.append_assoc] at e4
    have e5 : a ++ '-' :: (b ++ '/' :: rest)
        = owner1 ++ '/' :: (repo1 ++ (sfx1 ++ (" (push)".data ++ tail1))) := by
      have := e4.2
      simp at this
      simpa using this.2
    have := (split_first_unique isWordClass _ _ _ _ _ _ ha ho1 (by decide) (by decide) e5).2.1
    exact absurd this (by decide)

/-- C10: on every push line for `origin` whose owner is a non-empty string of
letters, digits, underscores and hyphens with at least one hyphen, whatever
the scheme, `git@`, separator, repository name and `.git` suffix are, the
parser returns ("", "", false). -/
theorem getRepoDetailsFromRemote_hyphen_owner (scheme : Scheme) (gitUser dotGit : Bool)
    (ws sep owner repo : String)
    (hws : ws ≠ "" ∧ ∀ c ∈ ws.data, isSpaceClass c = true)
    (hsep : sep = "/" ∨ sep = ":")
    (howner : owner ≠ "" ∧ ∀ c ∈ owner.data, isLetterDigitUnderscore c = true ∨ c = '-')
    (hhyphen : '-' ∈ owner.data) :
    getRepoDetailsFromRemote
        (remoteLine "origin" ws (remoteURL scheme gitUser sep owner repo dotGit) "push")
      = ("", "", false) := by
  have hsch : scheme.text.data = [] ∨ scheme.text.data = "https://".data
      ∨ scheme.text.data = "ssh://".data := by
    cases scheme
    · exact Or.inl rfl
    · exact Or.inr (Or.inl rfl)
    · exact Or.inr (Or.inr rfl)
  have husr : (if gitUser then "git@" else "").data = [] ∨
      (if gitUser then "git@" else "").data = "git@".data := by
    cases gitUser
    · exact Or.inl rfl
    · exact Or.inr rfl
  have hsepc : ∃ c, sep.data = [c] := by
    rcases hsep with rfl | rfl
    · exact ⟨'/', rfl⟩
    · exact ⟨':', rfl⟩
  obtain ⟨sc, hsc⟩ := hsepc
  have hm := matchAt_hyphen_owner ws.data scheme.text.data
    (if gitUser then "git@" else "").data owner.data
    (repo.data ++ (if dotGit then ".git" else "").data ++ " (push)".data) sc hws.2 hsch husr
    (fun c hc => by rw [isWordClass_eq]; exact howner.2 c hc) hhyphen
  have hline : (remoteLine "origin" ws
      (remoteURL scheme gitUser sep owner repo dotGit) "push").data
      = "origin".data ++ ws.data ++ scheme.text.data ++ (if gitUser then "git@" else "").data
          ++ "github.com".data ++ sc :: owner.data
          ++ '/' :: (repo.data ++ (if dotGit then ".git" else "").data ++ " (push)".data) := by
    simp only [remoteLine, remoteURL, String.data_append, hsc]
    simp
  unfold getRepoDetailsFromRemote
  rw [hline, getRepoDetailsChars_eq, hm]

/-- C10 at the line named in the claim, `origin git@github.com:my-org/widgets.git (push)`. -/
theorem getRepoDetailsFromRemote_hyphen_owner_witness :
    getRepoDetailsFromRemote "origin git@github.com:my-org/widgets.git (push)"
      = ("", "", false) :=
  getRepoDetailsFromRemote_hyphen_owner .none true true " " ":" "my-org" "widgets"
    (by decide) (by decide) (by decide) (by decide)

theorem isSpaceClass_cases (c : Char) (h : isSpaceClass c = true) :
    c = '\t' ∨ c = '\n' ∨ c = Char.ofNat 12 ∨ c = '\r' ∨ c = ' ' := by
  simp only [isSpaceClass, Bool.or_eq_true, beq_iff_eq] at h
  tauto

theorem not_space_of_wordOrHyphen (c : Char) (h : isWordOrHyphen c = true) :
    isSpaceClass c = false := by
  cases hs : isSpaceClass c with
  | false => rfl
  | true =>
    rcases isSpaceClass_cases c hs with rfl | rfl | rfl | rfl | rfl <;>
      exact absurd h (by decide)

theorem not_space_of_word (c : Char) (h : isWordClass c = true) :
    isSpaceClass c = false :=
  not_space_of_wordOrHyphen c (by simp [isWordOrHyphen, h])

theorem matchAt_other_line (name ws url dir : List Char)
    (hname : ∀ c ∈ name, isSpaceClass c = false)
    (hws0 : ws ≠ []) (hws : ∀ c ∈ ws, isSpaceClass c = true)
    (hurl : ∀ c ∈ url, isSpaceClass c = false)
    (hdir : dir = "fetch".data ∨ name ≠ "origin".data) :
    regexFormat.matchAt 0 (name ++ ws ++ url ++ " (".data ++ dir ++ ")".data) = none := by
  cases hm : regexFormat.matchAt 0 (name ++ ws ++ url ++ " (".data ++ dir ++ ")".data) with
  | none => rfl
  | some caps =>
    exfalso
    obtain ⟨ws1, scheme1, user1, x, sep1, owner1, repo1, sfx1, tail1, e, hws10, hws1, hscheme1,
      huser1, _, hsep1, _, ho1, _, hr1, hsfx1, _, _⟩ := matchAt_shape _ _ hm
    -- the name is `origin`
    obtain ⟨w, wr, rfl⟩ := List.exists_cons_of_ne_nil hws0
    obtain ⟨w1, wr1, rfl⟩ := List.exists_cons_of_ne_nil hws10
    have hw : isSpaceClass w = true := hws w (by simp)
    have hw1 : isSpaceClass w1 = true := hws1 w1 (by simp)
    have e1 : name ++ w :: (wr ++ url ++ " (".data ++ dir ++ ")".data)
        = "origin".data ++ w1 :: (wr1 ++ scheme1 ++ user1 ++ "github".data ++ x :: "com".data
            ++ sep1 :: owner1 ++ '/' :: repo1 ++ sfx1 ++ " (push)".data ++ tail1) := by
      simpa using e
    have hn := split_first_unique (fun c => !isSpaceClass c) _ _ _ _ _ _
      (fun c hc => by simp [hname c hc]) (by decide) (by simp [hw]) (by simp [hw1]) e1
    obtain ⟨hname_eq, _, e2⟩ := hn
    rcases hdir with rfl | hne
    swap
    · exact hne hname_eq
    -- after the whitespace: the URL part of the match against `url (fetch)`
    obtain ⟨c1, r1, hcr1, hc1⟩ := url_head scheme1 user1
      (x :: "com".data ++ sep1 :: owner1 ++ '/' :: repo1 ++ sfx1 ++ " (push)".data ++ tail1)
      hscheme1 huser1
    have hpre : ∀ c ∈ scheme1 ++ user1 ++ "github".data, isSpaceClass c = false := by
      rcases hscheme1 with rfl | rfl | rfl <;> rcases huser1 with rfl | rfl <;> decide
    have hmid : ∀ c ∈ "com".data ++ sep1 :: (owner1 ++ '/' :: repo1),
        isSpaceClass c = false := by
      intro c hc
      rcases List.mem_append.mp hc with hc | hc
      · have hcom : ∀ d ∈ "com".data, isSpaceClass d = false := by decide
        exact hcom c hc
      · rcases List.mem_cons.mp hc with rfl | hc
        · rcases hsep1 with rfl | rfl <;> decide
        · rcases List.mem_append.mp hc with hc | hc
          · exact not_space_of_word c (ho1 c hc)
          · rcases List.mem_cons.mp hc with rfl | hc
            · decide
            · exact not_space_of_wordOrHyphen c (hr1 c hc)
    have hwr : ∀ c ∈ wr, isSpaceClass c = true := fun c hc => hws c (by simp [hc])
    have hwr1 : ∀ c ∈ wr1, isSpaceClass c = true := fun c hc => hws1 c (by simp [hc])
    -- the text after the whitespace is `url (fetch)`, or `(fetch)` for an empty url
    have hZ : c1 :: r1 = url ++ " (fetch)".data ∨ c1 :: r1 = "(fetch)".data := by
      cases url with
      | nil =>
        right
        have e3 : (wr ++ [' ']) ++ '(' :: "fetch)".data = wr1 ++ c1 :: r1 := by
          rw [← hcr1]; simpa using e2
        obtain ⟨_, h1, h2⟩ := split_first_unique isSpaceClass _ _ _ _ _ _
          (fun c hc => by
            rcases List.mem_append.mp hc with hc | hc
            · exact hwr c hc
            · simp at hc; subst hc; decide)
          hwr1 (by decide) hc1 e3
        rw [← h1, ← h2]
      | cons u us =>
        left
        have e3 : wr ++ u :: (us ++ " (fetch)".data) = wr1 ++ c1 :: r1 := by
          rw [← hcr1]; simpa using e2
        obtain ⟨_, h1, h2⟩ := split_first_unique isSpaceClass _ _ _ _ _ _
          hwr hwr1 (hurl u (by simp)) hc1 e3
        rw [← h1, ← h2]
        rfl
    rw [← hcr1] at hZ
    rcases hZ with hZ | hZ
    swap
    · rcases hscheme1 with rfl | rfl | rfl <;> rcases huser1 with rfl | rfl <;> simp at hZ
    have hns : ∀ l : List Char, (∀ c ∈ l, isSpaceClass c = false) →
        ∀ c ∈ l, (fun c => !isSpaceClass c) c = true := by
      intro l hl c hc; simp [hl c hc]
    cases hx : isSpaceClass x with
    | true =>
      have e4 : (scheme1 ++ user1 ++ "github".data) ++ x ::
            ("com".data ++ sep1 :: (owner1 ++ '/' :: repo1) ++ (sfx1 ++ " (push)".data ++ tail1))
          = url ++ ' ' :: "(fetch)".data := by
        simpa using hZ
      have := (split_first_unique (fun c => !isSpaceClass c) _ _ _ _ _ _
        (hns _ hpre) (hns _ hurl) (by simp [hx]) (by decide) e4).2.2
      simp at this
    | false =>
      have hpm : ∀ c ∈ (scheme1 ++ user1 ++ "github".data) ++ x ::
          ("com".data ++ sep1 :: (owner1 ++ '/' :: repo1)), isSpaceClass c = false := by
        intro c hc
        rcases List.mem_append.mp hc with hc | hc
        · exact hpre c hc
        · rcases List.mem_cons.mp hc with rfl | hc
          · exact hx
          · exact hmid c hc
      rcases hsfx1 with rfl | ⟨y, _, rfl⟩
      · have e4 : ((scheme1 ++ user1 ++ "github".data) ++ x ::
              ("com".data ++ sep1 :: (owner1 ++ '/' :: repo1))) ++ ' ' :: ("(push)".data ++ tail1)
            = url ++ ' ' :: "(fetch)".data := by
          simpa using hZ
        have := (split_first_unique (fun c => !isSpaceClass c) _ _ _ _ _ _
          (hns _ hpm) (hns _ hurl) (by decide) (by decide) e4).2.2
        simp at this
      · cases hy : isSpaceClass y with
        | true =>
          have e4 : ((scheme1 ++ user1 ++ "github".data) ++ x ::
                ("com".data ++ sep1 :: (owner1 ++ '/' :: repo1))) ++ y ::
                  ("git".data ++ " (push)".data ++ tail1)
              = url ++ ' ' :: "(fetch)".data := by
            simpa using hZ
          have := (split_first_unique (fun c => !isSpaceClass c) _ _ _ _ _ _
            (hns _ hpm) (hns _ hurl) (by simp [hy]) (by decide) e4).2.2
          simp at this
        | false =>
          have e4 : (((scheme1 ++ user1 ++ "github".data) ++ x ::
                ("com".data ++ sep1 :: (owner1 ++ '/' :: repo1))) ++ y :: "git".data)
                ++ ' ' :: ("(push)".data ++ tail1)
              = url ++ ' ' :: "(fetch)".data := by
            simpa using hZ
          have hpm2 : ∀ c ∈ ((scheme1 ++ user1 ++ "github".data) ++ x ::
                ("com".data ++ sep1 :: (owner1 ++ '/' :: repo1))) ++ y :: "git".data,
              isSpaceClass c = false := by
            intro c hc
            rcases List.mem_append.mp hc with hc | hc
            · exact hpm c hc
            · rcases List.mem_cons.mp hc with rfl | hc
              · exact hy
              · have hgit : ∀ d ∈ "git".data, isSpaceClass d = false := by decide
                exact hgit c hc
          have := (split_first_unique (fun c => !isSpaceClass c) _ _ _ _ _ _
            (hns _ hpm2) (hns _ hurl) (by decide) (by decide) e4).2.2
          simp at this

/-! ## The remote-inference source -/

theorem loadLines_no_match (cfg : Config) (lines : List String)
    (h : ∀ l ∈ lines, (getRepoDetailsFromRemote l).2.2 = false) :
    remoteSource.loadLines cfg lines = cfg := by
  induction lines with
  | nil => rfl
  | cons l ls ih =>
    have hl := h l (by simp)
    have hls := ih (fun x hx => h x (by simp [hx]))
    unfold remoteSource.loadLines
    rcases hg : getRepoDetailsFromRemote l with ⟨o, n, m⟩
    rw [hg] at hl
    simp only at hl
    subst hl
    exact hls

theorem loadLines_first_match (cfg : Config) (pre post : List String) (line owner name : String)
    (hpre : ∀ l ∈ pre, (getRepoDetailsFromRemote l).2.2 = false)
    (hline : getRepoDetailsFromRemote line = (owner, name, true)) :
    remoteSource.loadLines cfg (pre ++ line :: post)
      = { cfg with Repo := { cfg.Repo with GitHubRepoOwner := owner,
                                            GitHubRepoName := name } } := by
  induction pre with
  | nil =>
    simp only [List.nil_append]
    unfold remoteSource.loadLines
    rw [hline]
  | cons l ls ih =>
    have hl := hpre l (by simp)
    have hls := ih (fun x hx => hpre x (by simp [hx]))
    simp only [List.cons_append]
    unfold remoteSource.loadLines
    rcases hg : getRepoDetailsFromRemote l with ⟨o, n, m⟩
    rw [hg] at hl
    simp only at hl
    subst hl
    exact hls

/-- C6: for every output of `git remote -v`, every starting Config and every
state of the files, `remoteSource.Load` works on the output split at newlines:
if a line is matched by the parser and no line before it is, owner and name
become the parser's result on that line, whatever the lines after it are, and
nothing else changes; if no line is matched, the Config is left as it was. -/
theorem remoteSource_Load_first_match (output : String) (target : Target) (cfg : Config)
    (w : World) :
    (∀ (pre post : List String) (line owner name : String),
        strings.Split output '\n' = pre ++ line :: post →
        (∀ l ∈ pre, (getRepoDetailsFromRemote l).2.2 = false) →
        getRepoDetailsFromRemote line = (owner, name, true) →
        remoteSource.Load target cfg { w with gitRemote := .ok output }
          = .ok { cfg with Repo := { cfg.Repo with GitHubRepoOwner := owner,
                                                    GitHubRepoName := name } }
                { w with gitRemote := .ok output })
    ∧ ((∀ l ∈ strings.Split output '\n', (getRepoDetailsFromRemote l).2.2 = false) →
        remoteSource.Load target cfg { w with gitRemote := .ok output }
          = .ok cfg { w with gitRemote := .ok output }) := by
  constructor
  · intro pre post line owner name hsplit hpre hline
    simp only [remoteSource.Load, hsplit]
    rw [loadLines_first_match cfg pre post line owner name hpre hline]
  · intro h
    simp only [remoteSource.Load]
    rw [loadLines_no_match cfg _ h]

/-- C6 on a listing with two matching push lines after a fetch line: the first
one (`acme/widgets`) is taken, the second (`other/thing`) is ignored, and no
other field of the Config changes. -/
theorem remoteSource_Load_first_match_witness :
    remoteSource.Load .repo EmptyConfig { noRemoteWorld with gitRemote := .ok twoPushListing }
      = .ok { EmptyConfig with Repo := { EmptyConfig.Repo with GitHubRepoOwner := "acme",
                                                               GitHubRepoName := "widgets" } }
          { noRemoteWorld with gitRemote := .ok twoPushListing } :=
  (remoteSource_Load_first_match twoPushListing .repo EmptyConfig noRemoteWorld).1
    ["origin git@github.com:acme/widgets (fetch)"]
    ["origin https://github.com/other/thing (push)", ""]
    "origin git@github.com:acme/widgets (push)" "acme" "widgets"
    (by decide) (by decide) (by decide)

theorem getRepoDetailsFromRemote_other_line (line : String) (h : OtherRemoteLine line) :
    getRepoDetailsFromRemote line = ("", "", false) := by
  obtain ⟨name, ws, url, direction, rfl, hname, hws0, hws, hurl, hdir⟩ := h
  have hd : direction.data = "fetch".data ∨ name.data ≠ "origin".data := by
    rcases hdir with rfl | hne
    · exact Or.inl rfl
    · right
      intro hcon
      apply hne
      cases name
      simp only at hcon
      subst hcon
      rfl
  have hm := matchAt_other_line name.data ws.data url.data direction.data hname
    (String.data_ne_nil hws0) hws hurl hd
  have hline : (remoteLine name ws url direction).data
      = name.data ++ ws.data ++ url.data ++ " (".data ++ direction.data ++ ")".data := by
    simp only [remoteLine, String.data_append]
  unfold getRepoDetailsFromRemote
  rw [hline, getRepoDetailsChars_eq, hm]

/-- C2: for every remote listing whose lines (the pieces between newlines, an
empty piece such as the one after a final newline being allowed) all have the
form `<name><whitespace><url> (<direction>)` with whitespace-free name and url
and are fetch lines or lines of a remote other than `origin`, the parser
returns ("", "", false) on every line and `remoteSource.Load` leaves the
Config, owner and name included, as it was. -/
theorem remoteSource_Load_other_lines (output : String)
    (h : ∀ line ∈ strings.Split output '\n', line = "" ∨ OtherRemoteLine line) :
    (∀ line ∈ strings.Split output '\n', getRepoDetailsFromRemote line = ("", "", false))
    ∧ ∀ (target : Target) (cfg : Config) (w : World),
        remoteSource.Load target cfg { w with gitRemote := .ok output }
          = .ok cfg { w with gitRemote := .ok output } := by
  have h1 : ∀ line ∈ strings.Split output '\n',
      getRepoDetailsFromRemote line = ("", "", false) := by
    intro line hl
    rcases h line hl with rfl | ho
    · decide
    · exact getRepoDetailsFromRemote_other_line line ho
  refine ⟨h1, ?_⟩
  intro target cfg w
  simp only [remoteSource.Load]
  rw [loadLines_no_match cfg _ (fun l hl => by rw [h1 l hl])]

/-- C2 on a listing with a fetch line for `origin` and a push line for
`upstream`: no line is matched and owner and name stay empty. -/
theorem remoteSource_Load_other_lines_witness :
    (∀ line ∈ strings.Split fetchOnlyListing '\n',
        getRepoDetailsFromRemote line = ("", "", false))
    ∧ ∀ (target : Target) (cfg : Config) (w : World),
        remoteSource.Load target cfg { w with gitRemote := .ok fetchOnlyListing }
          = .ok cfg { w with gitRemote := .ok fetchOnlyListing } :=
  remoteSource_Load_other_lines fetchOnlyListing
    (by
      intro line hl
      have hs : strings.Split fetchOnlyListing '\n'
          = ["origin git@github.com:acme/widgets (fetch)",
             "upstream https://github.com/acme/widgets (push)", ""] := by decide
      rw [hs] at hl
      simp only [List.mem_cons, List.mem_singleton, List.not_mem_nil, or_false] at hl
      rcases hl with rfl | rfl | rfl
      · exact Or.inr ⟨"origin", " ", "git@github.com:acme/widgets", "fetch", by decide,
          by decide, by decide, by decide, by decide, Or.inl rfl⟩
      · exact Or.inr ⟨"upstream", " ", "https://github.com/acme/widgets", "push", by decide,
          by decide, by decide, by decide, by decide, Or.inr (by decide)⟩
      · exact Or.inl rfl)

/-! ## The shape of matched lines -/

/-- C7, the code at a line that the claim, and the comment on `repoFormat`
in config.go, exclude: `origin https://github.com:acme/widgets (push)` has a
scheme and the separator `:` and does not have the accepted shape, and the
parser matches it and returns ("acme", "widgets", true). The line
`origin github.com/acme/widgets (push)`, without a scheme and with the
separator `/`, is matched as well. -/
theorem getRepoDetailsFromRemote_scheme_colon_matched :
    getRepoDetailsFromRemote "origin https://github.com:acme/widgets (push)"
        = ("acme", "widgets", true)
    ∧ ¬ AcceptedShape "origin https://github.com:acme/widgets (push)"
    ∧ getRepoDetailsFromRemote "origin github.com/acme/widgets (push)"
        = ("acme", "widgets", true) := by
  refine ⟨by decide, ?_, by decide⟩
  rintro ⟨scheme, gitUser, dotGit, ws, owner, repo, hws0, hws, e⟩
  have e1 := congrArg String.data e
  simp only [remoteLine, remoteURL, String.data_append] at e1
  have hd := String.data_ne_nil hws0
  obtain ⟨w, wr, hwd⟩ := List.exists_cons_of_ne_nil hd
  rw [hwd] at e1 hws
  have hwr : ∀ c ∈ wr, isSpaceClass c = true := fun c hc => hws c (by simp [hc])
  simp only [List.append_assoc, List.cons_append, List.nil_append, List.cons.injEq,
    true_and] at e1
  obtain ⟨_, e2⟩ := e1
  cases scheme <;> cases gitUser <;>
    simp only [Scheme.text, Scheme.separator, if_true, if_false, Bool.false_eq_true] at e2
  all_goals
    simp only [List.nil_append, List.singleton_append] at e2
    have h := split_first_unique isSpaceClass [] wr _ _ _ _ (by simp) hwr (by decide)
      (by decide) e2
    simp at h


/-! ## The resolver -/

theorem World.read_write_same (w : World) (p : String) (d : YamlDoc) :
    (w.write p d).read p = some d := by
  simp [World.read, World.write]

theorem World.read_write_other (w : World) (p q : String) (d : YamlDoc) (h : q ≠ p) :
    (w.write p d).read q = w.read q := by
  simp [World.read, World.write, h]

theorem World.write_self (w : World) (p : String) (d : YamlDoc) (h : w.read p = some d) :
    w.write p d = w := by
  cases w with
  | mk g r hd cj files =>
    simp only [World.read] at h
    simp only [World.write, World.mk.injEq, true_and]
    funext q
    by_cases hq : q = p
    · subst hq
      simp [h]
    · simp [hq]

theorem loadLines_User (cfg : Config) (lines : List String) :
    (remoteSource.loadLines cfg lines).User = cfg.User := by
  induction lines with
  | nil => rfl
  | cons l ls ih =>
    unfold remoteSource.loadLines
    rcases getRepoDetailsFromRemote l with ⟨o, n, m⟩
    cases m
    · exact ih
    · rfl

theorem loadRepoSources_of_before (w w0 : World) (cfg : Config)
    (h : loadRepoBeforeWrite w = .ok cfg w0) :
    w0 = w ∧ loadRepoSources w = .ok cfg (w.write (RepoConfigFilePath w) cfg.Repo.encode) := by
  unfold loadRepoBeforeWrite at h
  unfold loadRepoSources
  simp only [LoadSources, DefaultSource, GitHubRemoteSource, remoteSource.Load, YamlFileSource,
    YamlFileWriter] at h ⊢
  cases hg : w.gitRemote with
  | err e => rw [hg] at h; simp at h
  | ok out =>
    rw [hg] at h
    simp only at h ⊢
    cases hf : w.read (RepoConfigFilePath w) with
    | none =>
      rw [hf] at h
      simp only [Step.ok.injEq] at h
      obtain ⟨rfl, rfl⟩ := h
      exact ⟨rfl, rfl⟩
    | some d =>
      rw [hf] at h
      simp only [Step.ok.injEq] at h
      obtain ⟨rfl, rfl⟩ := h
      exact ⟨rfl, rfl⟩

theorem loadRepoBeforeWrite_ok (w : World) (out : String) (hg : w.gitRemote = .ok out) :
    ∃ cfg, loadRepoBeforeWrite w = .ok cfg w ∧ cfg.User = EmptyConfig.User := by
  unfold loadRepoBeforeWrite
  simp only [LoadSources, DefaultSource, GitHubRemoteSource, remoteSource.Load, YamlFileSource,
    hg]
  cases w.read (RepoConfigFilePath w) with
  | none => exact ⟨_, rfl, loadLines_User _ _⟩
  | some d => exact ⟨_, rfl, loadLines_User _ _⟩

theorem loadRepoSources_ok (w w1 : World) (cfg : Config)
    (h : loadRepoSources w = .ok cfg w1) :
    loadRepoBeforeWrite w = .ok cfg w
    ∧ w1 = w.write (RepoConfigFilePath w) cfg.Repo.encode
    ∧ cfg.User = EmptyConfig.User ∧ ∃ out, w.gitRemote = .ok out := by
  cases hg : w.gitRemote with
  | err e =>
    unfold loadRepoSources at h
    simp [LoadSources, DefaultSource, GitHubRemoteSource, remoteSource.Load, hg] at h
  | ok out =>
    obtain ⟨cfg0, hb, hu⟩ := loadRepoBeforeWrite_ok w out hg
    obtain ⟨_, hl⟩ := loadRepoSources_of_before w w cfg0 hb
    rw [hl] at h
    simp only [Step.ok.injEq] at h
    obtain ⟨rfl, rfl⟩ := h
    exact ⟨hb, rfl, hu, out, rfl⟩

theorem loadUserSources_eq (w : World) (cfg : Config) (p : String) :
    LoadSources .user [DefaultSource, YamlFileSource p] cfg w
      = .ok { cfg with User := userValues (w.read p) } w := by
  simp only [LoadSources, DefaultSource, YamlFileSource]
  cases hf : w.read p with
  | none => rfl
  | some d =>
    simp only [userValues, keyOr, UserConfig.overlay]

theorem ParseConfig_of_loadRepoSources (w : World) (cfg1 : Config)
    (h : loadRepoSources w
      = .ok cfg1 (w.write (RepoConfigFilePath w) cfg1.Repo.encode)) :
    ParseConfig w =
      match validateRepo cfg1.Repo with
      | some (code, out) =>
        (.exited code out, w.write (RepoConfigFilePath w) cfg1.Repo.encode)
      | none =>
        match w.homeDir with
        | .err e => (.panicked e, w.write (RepoConfigFilePath w) cfg1.Repo.encode)
        | .ok dir =>
          (.returned
            { Repo := cfg1.Repo,
              User := { userValues ((w.write (RepoConfigFilePath w) cfg1.Repo.encode).read
                          (w.cleanJoin dir ".spr.yml")) with
                RunCount := intAdd (userValues
                  ((w.write (RepoConfigFilePath w) cfg1.Repo.encode).read
                    (w.cleanJoin dir ".spr.yml"))).RunCount 1 } },
           (w.write (RepoConfigFilePath w) cfg1.Repo.encode).write
              (w.cleanJoin dir ".spr.yml")
              (UserConfig.encode
                { userValues ((w.write (RepoConfigFilePath w) cfg1.Repo.encode).read
                    (w.cleanJoin dir ".spr.yml")) with
                  RunCount := intAdd (userValues
                    ((w.write (RepoConfigFilePath w) cfg1.Repo.encode).read
                      (w.cleanJoin dir ".spr.yml"))).RunCount 1 })) := by
  unfold ParseConfig
  rw [h]
  simp only
  cases validateRepo cfg1.Repo with
  | some p => rfl
  | none =>
    simp only [UserConfigFilePath, World.write]
    cases w.homeDir with
    | err e => rfl
    | ok dir =>
      simp only [loadUserSources_eq]
      rfl

theorem overlay_of_holdsRepo (c r : RepoConfig) (d : YamlDoc) (hd : d.holdsRepo r) :
    c.overlay d = r := by
  obtain ⟨h1, h2, h3, h4, h5, h6⟩ := hd
  simp [RepoConfig.overlay, h1, h2, h3, h4, h5, h6]

theorem encode_holdsRepo (r : RepoConfig) : r.encode.holdsRepo r :=
  ⟨rfl, rfl, rfl, rfl, rfl, rfl⟩

theorem userValues_encode (u : UserConfig) : userValues (some u.encode) = u := rfl

theorem loadRepoSources_full_file (w : World) (out : String) (d : YamlDoc) (r : RepoConfig)
    (hg : w.gitRemote = .ok out) (hf : w.read (RepoConfigFilePath w) = some d)
    (hd : d.holdsRepo r) :
    loadRepoSources w
      = .ok { Repo := r, User := EmptyConfig.User }
          (w.write (RepoConfigFilePath w) r.encode) := by
  unfold loadRepoSources
  simp only [LoadSources, DefaultSource, GitHubRemoteSource, remoteSource.Load, YamlFileSource,
    YamlFileWriter, hg, hf]
  rw [overlay_of_holdsRepo _ r d hd, loadLines_User]

theorem validateRepo_eq_none (r : RepoConfig) :
    validateRepo r = none ↔ r.GitHubRepoOwner ≠ "" ∧ r.GitHubRepoName ≠ "" := by
  unfold validateRepo
  by_cases ho : r.GitHubRepoOwner = ""
  · simp [ho]
  · by_cases hn : r.GitHubRepoName = ""
    · simp [ho, hn]
    · simp [ho, hn]

theorem ParseConfig_returned (w : World) (cfg : Config)
    (h : (ParseConfig w).1 = .returned cfg) :
    ∃ out dir, w.gitRemote = .ok out ∧ w.homeDir = .ok dir
      ∧ validateRepo cfg.Repo = none
      ∧ cfg.User =
          { userValues ((w.write (RepoConfigFilePath w) cfg.Repo.encode).read
              (w.cleanJoin dir ".spr.yml")) with
            RunCount := intAdd (userValues
              ((w.write (RepoConfigFilePath w) cfg.Repo.encode).read
                (w.cleanJoin dir ".spr.yml"))).RunCount 1 }
      ∧ (ParseConfig w).2 = (w.write (RepoConfigFilePath w) cfg.Repo.encode).write
            (w.cleanJoin dir ".spr.yml") cfg.User.encode := by
  cases hl : loadRepoSources w with
  | panic e w2 =>
    unfold ParseConfig at h
    rw [hl] at h
    simp at h
  | ok cfg1 w2 =>
    obtain ⟨_, rfl, _, out, hout⟩ := loadRepoSources_ok w w2 cfg1 hl
    have hp := ParseConfig_of_loadRepoSources w cfg1 hl
    cases hv : validateRepo cfg1.Repo with
    | some p =>
      rw [hp, hv] at h
      simp at h
    | none =>
      cases hh : w.homeDir with
      | err e =>
        rw [hp, hv, hh] at h
        simp at h
      | ok dir =>
        rw [hv, hh] at hp
        simp only at hp
        rw [hp] at h
        simp only [Outcome.returned.injEq] at h
        subst h
        exact ⟨out, dir, hout, rfl, hv, rfl, by rw [hp]⟩

theorem ParseConfig_returned_distinct (w : World) (cfg : Config) (up : String)
    (h : (ParseConfig w).1 = .returned cfg)
    (hup : UserConfigFilePath w = .ok up) (hne : RepoConfigFilePath w ≠ up) :
    (∃ out, w.gitRemote = .ok out)
    ∧ validateRepo cfg.Repo = none
    ∧ cfg.User = { userValues (w.read up) with
        RunCount := intAdd (fileRunCount w up) 1 }
    ∧ (ParseConfig w).2
        = (w.write (RepoConfigFilePath w) cfg.Repo.encode).write up cfg.User.encode := by
  obtain ⟨out, dir, hg, hh, hv, hu, hw⟩ := ParseConfig_returned w cfg h
  have hupd : up = w.cleanJoin dir ".spr.yml" := by
    simp only [UserConfigFilePath, hh, Except.ok.injEq] at hup
    exact hup.symm
  subst hupd
  rw [World.read_write_other _ _ _ _ (Ne.symm hne)] at hu
  exact ⟨⟨out, hg⟩, hv, hu, hw⟩

theorem ParseConfig_again (w : World) (cfg : Config) (up : String)
    (h : (ParseConfig w).1 = .returned cfg)
    (hup : UserConfigFilePath w = .ok up) (hne : RepoConfigFilePath w ≠ up) :
    (ParseConfig (ParseConfig w).2).1
        = .returned { Repo := cfg.Repo,
                      User := { cfg.User with RunCount := intAdd cfg.User.RunCount 1 } }
    ∧ UserConfigFilePath (ParseConfig w).2 = .ok up
    ∧ RepoConfigFilePath (ParseConfig w).2 = RepoConfigFilePath w
    ∧ (ParseConfig w).2.read up = some cfg.User.encode := by
  obtain ⟨⟨out, hg⟩, hv, _, hw⟩ := ParseConfig_returned_distinct w cfg up h hup hne
  have hg1 : (ParseConfig w).2.gitRemote = .ok out := by rw [hw]; exact hg
  have hrp : RepoConfigFilePath (ParseConfig w).2 = RepoConfigFilePath w := by rw [hw]; rfl
  have hup1 : UserConfigFilePath (ParseConfig w).2 = .ok up := by rw [hw]; exact hup
  have hru : (ParseConfig w).2.read up = some cfg.User.encode := by
    rw [hw]; exact World.read_write_same _ _ _
  have hrr : (ParseConfig w).2.read (RepoConfigFilePath (ParseConfig w).2)
      = some cfg.Repo.encode := by
    rw [hrp, hw, World.read_write_other _ _ _ _ hne]
    exact World.read_write_same _ _ _
  have hl := loadRepoSources_full_file (ParseConfig w).2 out _ cfg.Repo hg1 hrr
    (encode_holdsRepo cfg.Repo)
  have hwr := World.write_self (ParseConfig w).2 _ _ hrr
  have hp := ParseConfig_of_loadRepoSources (ParseConfig w).2 _ hl
  have hd1 : ∃ dir, (ParseConfig w).2.homeDir = .ok dir
      ∧ (ParseConfig w).2.cleanJoin dir ".spr.yml" = up := by
    unfold UserConfigFilePath at hup1
    cases hh : (ParseConfig w).2.homeDir with
    | err e => rw [hh] at hup1; simp at hup1
    | ok dir =>
      rw [hh] at hup1
      simp only [Except.ok.injEq] at hup1
      exact ⟨dir, rfl, hup1⟩
  obtain ⟨dir, hh1, hcj⟩ := hd1
  refine ⟨?_, hup1, hrp, hru⟩
  rw [hp]
  simp only [hv, hh1, hcj, hwr, hru, userValues_encode]

/-- C3: with the RepoConfig that the repository source list produced, the run
ends with exit status 3 whenever the owner is empty, whatever the name is (the
line printed is the one for the owner, the name is not looked at); it ends
with exit status 4 exactly when the owner is non-empty and the name is empty;
and the validation passes (no exit) exactly when both are non-empty. -/
theorem ParseConfig_validation (w w1 : World) (cfg1 : Config)
    (h : loadRepoSources w = .ok cfg1 w1) :
    (cfg1.Repo.GitHubRepoOwner = "" →
      ParseConfig w = (.exited 3
        "unable to auto configure repository owner - must be set manually in .spr.yml\n", w1))
    ∧ ((∃ out, (ParseConfig w).1 = .exited 3 out) ↔ cfg1.Repo.GitHubRepoOwner = "")
    ∧ ((∃ out, (ParseConfig w).1 = .exited 4 out) ↔
        cfg1.Repo.GitHubRepoOwner ≠ "" ∧ cfg1.Repo.GitHubRepoName = "")
    ∧ ((∀ code out, (ParseConfig w).1 ≠ .exited code out) ↔
        cfg1.Repo.GitHubRepoOwner ≠ "" ∧ cfg1.Repo.GitHubRepoName ≠ "")
    ∧ (validateRepo cfg1.Repo = none ↔
        cfg1.Repo.GitHubRepoOwner ≠ "" ∧ cfg1.Repo.GitHubRepoName ≠ "") := by
  obtain ⟨_, rfl, _, _⟩ := loadRepoSources_ok w w1 cfg1 h
  have hp := ParseConfig_of_loadRepoSources w cfg1 h
  by_cases ho : cfg1.Repo.GitHubRepoOwner = ""
  · have hv : validateRepo cfg1.Repo = some (3,
        "unable to auto configure repository owner - must be set manually in .spr.yml\n") := by
      simp [validateRepo, ho]
    rw [hv] at hp
    simp only at hp
    refine ⟨fun _ => hp, ?_, ?_, ?_, ?_⟩
    · exact ⟨fun _ => ho, fun _ => ⟨_, by rw [hp]⟩⟩
    · constructor
      · rintro ⟨out, h4⟩
        rw [hp] at h4
        simp at h4
      · rintro ⟨h1, _⟩
        exact absurd ho h1
    · constructor
      · intro hall
        exact absurd (by rw [hp]) (hall 3 _)
      · rintro ⟨h1, _⟩
        exact absurd ho h1
    · exact validateRepo_eq_none _
  · by_cases hn : cfg1.Repo.GitHubRepoName = ""
    · have hv : validateRepo cfg1.Repo = some (4,
          "unable to auto configure repository name - must be set manually in .spr.yml\n") := by
        simp [validateRepo, ho, hn]
      rw [hv] at hp
      simp only at hp
      refine ⟨fun h0 => absurd h0 ho, ?_, ?_, ?_, ?_⟩
      · constructor
        · rintro ⟨out, h3⟩
          rw [hp] at h3
          simp at h3
        · intro h0
          exact absurd h0 ho
      · exact ⟨fun _ => ⟨ho, hn⟩, fun _ => ⟨_, by rw [hp]⟩⟩
      · constructor
        · intro hall
          exact absurd (by rw [hp]) (hall 4 _)
        · rintro ⟨_, h2⟩
          exact absurd hn h2
      · exact validateRepo_eq_none _
    · have hv : validateRepo cfg1.Repo = none := (validateRepo_eq_none _).2 ⟨ho, hn⟩
      rw [hv] at hp
      simp only at hp
      have hne : ∀ code out, (ParseConfig w).1 ≠ .exited code out := by
        intro code out
        rw [hp]
        cases w.homeDir <;> simp
      refine ⟨fun h0 => absurd h0 ho, ?_, ?_, ?_, ?_⟩
      · constructor
        · rintro ⟨out, h3⟩
          exact absurd h3 (hne 3 out)
        · intro h0
          exact absurd h0 ho
      · constructor
        · rintro ⟨out, h4⟩
          exact absurd h4 (hne 4 out)
        · rintro ⟨_, h2⟩
          exact absurd h2 hn
      · exact ⟨fun _ => ⟨ho, hn⟩, fun _ => hne⟩
      · exact ⟨fun _ => ⟨ho, hn⟩, fun _ => hv⟩

/-- C3 on a run without remote and without files: owner and name are both
empty and the run ends with exit status 3 and the line for the owner. -/
theorem ParseConfig_validation_witness :
    ParseConfig noRemoteWorld = (.exited 3
      "unable to auto configure repository owner - must be set manually in .spr.yml\n",
      (ParseConfig noRemoteWorld).2) :=
  (ParseConfig_validation noRemoteWorld (ParseConfig noRemoteWorld).2
    { EmptyConfig with Repo := { EmptyConfig.Repo with
        RequireChecks := true, RequireApproval := true,
        GitHubRemote := "origin", GitHubBranch := "master" } }
    rfl).1 (by decide)

/-- C5: for every repository file that holds explicit values for all six
fields and every output of `git remote -v`, the repository source list
[Default, Remote-inference, File-read, File-write] produces a RepoConfig equal
to the file's values, field for field. -/
theorem loadRepoSources_file_wins (w : World) (output : String) (d : YamlDoc)
    (r : RepoConfig) (hd : d.holdsRepo r) :
    ∃ cfg w1,
      loadRepoSources { w.write (RepoConfigFilePath w) d with gitRemote := .ok output }
        = .ok cfg w1
      ∧ cfg.Repo = r := by
  refine ⟨_, _, loadRepoSources_full_file _ output d r rfl ?_ hd, rfl⟩
  exact World.read_write_same w (RepoConfigFilePath w) d

/-- C5 on a file that names `corp/tool` while the push line of `origin` names
`acme/widgets`: the file's six values are the result. -/
theorem loadRepoSources_file_wins_witness :
    ∃ cfg w1,
      loadRepoSources fullFileWorld = .ok cfg w1
      ∧ cfg.Repo = { GitHubRepoOwner := "corp", GitHubRepoName := "tool",
                     RequireChecks := false, RequireApproval := false,
                     GitHubRemote := "upstream", GitHubBranch := "main" } :=
  loadRepoSources_file_wins freshWorld
    "origin git@github.com:acme/widgets (fetch)\norigin git@github.com:acme/widgets (push)\n"
    { YamlDoc.empty with
        githubRepoOwner := some "corp", githubRepoName := some "tool",
        requireChecks := some false, requireApproval := some false,
        githubRemote := some "upstream", githubBranch := some "main" }
    { GitHubRepoOwner := "corp", GitHubRepoName := "tool",
      RequireChecks := false, RequireApproval := false,
      GitHubRemote := "upstream", GitHubBranch := "main" }
    ⟨rfl, rfl, rfl, rfl, rfl, rfl⟩

/-- C8 fails for a run in which `git remote -v` fails: `check` panics in the
remote-inference source, before the writer, and the repository file has not
been written. -/
theorem ParseConfig_panics_before_write :
    (ParseConfig gitFailsWorld).1 = .panicked "exit status 128"
    ∧ (ParseConfig gitFailsWorld).2.read (RepoConfigFilePath gitFailsWorld) = none := by
  decide

/-- C8 as amended: in every run of `ParseConfig` in which `git remote -v`
succeeds, the sources [Default, Remote-inference, File-read] produce a
RepoConfig without writing, and when the validation takes place the repository
file has been written with it: the file holds the six repository keys with the
six fields as their values. A run that ends with an exit status (3 or 4) ends
in that state, and at the end of every run in which the user file is not the
repository file, whatever the outcome of the validation, the repository file
holds that content: after the validation the only change to the files, if
there is one, is the write of the user file. -/
theorem ParseConfig_writes_before_validation (w : World) (output : String)
    (hg : w.gitRemote = .ok output) :
    ∃ cfg,
      loadRepoBeforeWrite w = .ok cfg w
      ∧ loadRepoSources w = .ok cfg
          (w.write (RepoConfigFilePath w)
            { YamlDoc.empty with
              githubRepoOwner := some cfg.Repo.GitHubRepoOwner,
              githubRepoName := some cfg.Repo.GitHubRepoName,
              requireChecks := some cfg.Repo.RequireChecks,
              requireApproval := some cfg.Repo.RequireApproval,
              githubRemote := some cfg.Repo.GitHubRemote,
              githubBranch := some cfg.Repo.GitHubBranch })
      ∧ (∀ code out, validateRepo cfg.Repo = some (code, out) →
          ParseConfig w = (.exited code out,
            w.write (RepoConfigFilePath w)
              { YamlDoc.empty with
                githubRepoOwner := some cfg.Repo.GitHubRepoOwner,
                githubRepoName := some cfg.Repo.GitHubRepoName,
                requireChecks := some cfg.Repo.RequireChecks,
                requireApproval := some cfg.Repo.RequireApproval,
                githubRemote := some cfg.Repo.GitHubRemote,
                githubBranch := some cfg.Repo.GitHubBranch }))
      ∧ (UserConfigFilePath w ≠ .ok (RepoConfigFilePath w) →
          (ParseConfig w).2.read (RepoConfigFilePath w)
            = some { YamlDoc.empty with
                githubRepoOwner := some cfg.Repo.GitHubRepoOwner,
                githubRepoName := some cfg.Repo.GitHubRepoName,
                requireChecks := some cfg.Repo.RequireChecks,
                requireApproval := some cfg.Repo.RequireApproval,
                githubRemote := some cfg.Repo.GitHubRemote,
                githubBranch := some cfg.Repo.GitHubBranch })
      ∧ ((ParseConfig w).2 = w.write (RepoConfigFilePath w) cfg.Repo.encode
          ∨ ∃ up d, UserConfigFilePath w = .ok up
              ∧ (ParseConfig w).2
                  = (w.write (RepoConfigFilePath w) cfg.Repo.encode).write up d) := by
  obtain ⟨cfg, hb, _⟩ := loadRepoBeforeWrite_ok w output hg
  obtain ⟨_, hl⟩ := loadRepoSources_of_before w w cfg hb
  have hp := ParseConfig_of_loadRepoSources w cfg hl
  refine ⟨cfg, hb, hl, ?_, ?_, ?_⟩
  · intro code out hv
    rw [hp, hv]
    rfl
  · intro hne
    rw [hp]
    cases hv : validateRepo cfg.Repo with
    | some p => exact World.read_write_same _ _ _
    | none =>
      simp only
      cases hh : w.homeDir with
      | err e => exact World.read_write_same _ _ _
      | ok dir =>
        simp only
        have hne2 : RepoConfigFilePath w ≠ w.cleanJoin dir ".spr.yml" := by
          intro hcon
          apply hne
          simp only [UserConfigFilePath, hh, hcon]
        rw [World.read_write_other _ _ _ _ hne2]
        exact World.read_write_same _ _ _
  · rw [hp]
    cases hv : validateRepo cfg.Repo with
    | some p => exact Or.inl rfl
    | none =>
      simp only
      cases hh : w.homeDir with
      | err e => exact Or.inl rfl
      | ok dir =>
        exact Or.inr ⟨w.cleanJoin dir ".spr.yml", _, by simp [UserConfigFilePath, hh], rfl⟩

/-- C8 as amended, on a run without remote and without files: the run ends
with exit status 3, and the repository file exists afterwards and holds the
defaults with empty owner and name. -/
theorem ParseConfig_writes_before_validation_witness :
    (ParseConfig noRemoteWorld).1 = .exited 3
        "unable to auto configure repository owner - must be set manually in .spr.yml\n"
    ∧ ∃ cfg,
      loadRepoBeforeWrite noRemoteWorld = .ok cfg noRemoteWorld
      ∧ loadRepoSources noRemoteWorld = .ok cfg
          (noRemoteWorld.write (RepoConfigFilePath noRemoteWorld)
            { YamlDoc.empty with
              githubRepoOwner := some cfg.Repo.GitHubRepoOwner,
              githubRepoName := some cfg.Repo.GitHubRepoName,
              requireChecks := some cfg.Repo.RequireChecks,
              requireApproval := some cfg.Repo.RequireApproval,
              githubRemote := some cfg.Repo.GitHubRemote,
              githubBranch := some cfg.Repo.GitHubBranch })
      ∧ (∀ code out, validateRepo cfg.Repo = some (code, out) →
          ParseConfig noRemoteWorld = (.exited code out,
            noRemoteWorld.write (RepoConfigFilePath noRemoteWorld)
              { YamlDoc.empty with
                githubRepoOwner := some cfg.Repo.GitHubRepoOwner,
                githubRepoName := some cfg.Repo.GitHubRepoName,
                requireChecks := some cfg.Repo.RequireChecks,
                requireApproval := some cfg.Repo.RequireApproval,
                githubRemote := some cfg.Repo.GitHubRemote,
                githubBranch := some cfg.Repo.GitHubBranch }))
      ∧ (UserConfigFilePath noRemoteWorld ≠ .ok (RepoConfigFilePath noRemoteWorld) →
          (ParseConfig noRemoteWorld).2.read (RepoConfigFilePath noRemoteWorld)
            = some { YamlDoc.empty with
                githubRepoOwner := some cfg.Repo.GitHubRepoOwner,
                githubRepoName := some cfg.Repo.GitHubRepoName,
                requireChecks := some cfg.Repo.RequireChecks,
                requireApproval := some cfg.Repo.RequireApproval,
                githubRemote := some cfg.Repo.GitHubRemote,
                githubBranch := some cfg.Repo.GitHubBranch })
      ∧ ((ParseConfig noRemoteWorld).2
            = noRemoteWorld.write (RepoConfigFilePath noRemoteWorld) cfg.Repo.encode
          ∨ ∃ up d, UserConfigFilePath noRemoteWorld = .ok up
              ∧ (ParseConfig noRemoteWorld).2
                  = (noRemoteWorld.write (RepoConfigFilePath noRemoteWorld)
                      cfg.Repo.encode).write up d) :=
  ⟨by decide, ParseConfig_writes_before_validation noRemoteWorld "" rfl⟩

theorem intAdd_one (n : Int) (hlo : minInt ≤ n) (hhi : n < maxInt) : intAdd n 1 = n + 1 := by
  unfold intAdd wrapInt
  unfold minInt at hlo
  unfold maxInt at hhi
  omega

theorem fileRunCount_after (w : World) (cfg : Config) (up : String)
    (h : (ParseConfig w).1 = .returned cfg)
    (hup : UserConfigFilePath w = .ok up) (hne : RepoConfigFilePath w ≠ up) :
    cfg.User = { userValues (w.read up) with RunCount := intAdd (fileRunCount w up) 1 }
    ∧ (ParseConfig w).2.read up = some cfg.User.encode
    ∧ fileRunCount (ParseConfig w).2 up = intAdd (fileRunCount w up) 1 := by
  obtain ⟨_, _, hu, _⟩ := ParseConfig_returned_distinct w cfg up h hup hne
  obtain ⟨_, _, _, hr⟩ := ParseConfig_again w cfg up h hup hne
  refine ⟨hu, hr, ?_⟩
  unfold fileRunCount
  rw [hr]
  simp only [keyOr, UserConfig.encode, Option.getD_some]
  rw [hu]
  rfl

theorem resolutions_count (up : String) (k : Nat) :
    ∀ (w : World) (cfg : Config), (ParseConfig w).1 = .returned cfg →
      UserConfigFilePath w = .ok up → RepoConfigFilePath w ≠ up →
      minInt ≤ fileRunCount w up → fileRunCount w up + k ≤ maxInt →
      fileRunCount (resolutions k w) up = fileRunCount w up + k
      ∧ ∀ i : Nat, i < k →
          ∃ c, (ParseConfig (resolutions i w)).1 = .returned c
            ∧ c.User.RunCount = fileRunCount w up + i + 1 := by
  induction k with
  | zero =>
    intro w cfg _ _ _ _ _
    exact ⟨by simp [resolutions], fun i hi => absurd hi (Nat.not_lt_zero i)⟩
  | succ k ih =>
    intro w cfg h hup hne hlo hhi
    obtain ⟨hu, _, hf⟩ := fileRunCount_after w cfg up h hup hne
    have hlt : fileRunCount w up < maxInt := by
      have : (0 : Int) ≤ (k : Int) := Int.ofNat_nonneg k
      push_cast at hhi
      omega
    rw [intAdd_one _ hlo hlt] at hu hf
    have hc : cfg.User.RunCount = fileRunCount w up + 1 := by rw [hu]
    obtain ⟨h2, hup1, hrp1, _⟩ := ParseConfig_again w cfg up h hup hne
    obtain ⟨ih1, ih2⟩ := ih (ParseConfig w).2 _ h2 hup1 (by rw [hrp1]; exact hne)
      (by rw [hf]; omega) (by rw [hf]; push_cast at hhi; omega)
    constructor
    · simp only [resolutions]
      rw [ih1, hf]
      push_cast
      omega
    · intro i hi
      cases i with
      | zero =>
        refine ⟨cfg, by simpa [resolutions] using h, ?_⟩
        rw [hc]
        simp
      | succ j =>
        obtain ⟨c, hc1, hc2⟩ := ih2 j (by omega)
        refine ⟨c, by simpa only [resolutions] using hc1, ?_⟩
        rw [hc2, hf]
        push_cast
        omega

/-- C4 fails when the working-tree root is the home directory: the repository
file and the user file are then the same file `/home/u/.spr.yml`. It holds run
count 41 and `stargazer`; the repository writer overwrites it before the user
sources read it, so the successful run returns RunCount 1, not 42, with
`stargazer` back at its default, the file written holds run count 1, and after
two runs in succession it still holds 1. -/
theorem ParseConfig_same_file_RunCount :
    RepoConfigFilePath homeRootWorld = "/home/u/.spr.yml"
    ∧ UserConfigFilePath homeRootWorld = .ok "/home/u/.spr.yml"
    ∧ fileRunCount homeRootWorld "/home/u/.spr.yml" = 41
    ∧ (ParseConfig homeRootWorld).1
        = .returned
            { Repo := { GitHubRepoOwner := "acme", GitHubRepoName := "widgets",
                        RequireChecks := true, RequireApproval := true,
                        GitHubRemote := "origin", GitHubBranch := "master" },
              User := { ShowPRLink := true, LogGitCommands := false, LogGitHubCalls := false,
                        StatusBitsHeader := true, Stargazer := false, RunCount := 1 } }
    ∧ fileRunCount (ParseConfig homeRootWorld).2 "/home/u/.spr.yml" = 1
    ∧ fileRunCount (resolutions 2 homeRootWorld) "/home/u/.spr.yml" = 1 := by
  refine ⟨by decide, rfl, by decide, by decide, by decide, by decide⟩

/-- C4 as amended: for every successful resolution in which the user file is
not the repository file and holds run count n (0 when the file is absent), n
an int below the largest one, the returned RunCount is n + 1 and every other
returned user field is the value the file gave it (its default where the file
does not hold the key); the user file written holds exactly these six values
under the six user keys. Hence k resolutions in succession take the file's run
count from n to n + k, each returning successfully with the next count. -/
theorem ParseConfig_bumps_RunCount (w : World) (cfg : Config) (up : String)
    (h : (ParseConfig w).1 = .returned cfg)
    (hup : UserConfigFilePath w = .ok up) (hne : RepoConfigFilePath w ≠ up)
    (hlo : minInt ≤ fileRunCount w up) (hhi : fileRunCount w up < maxInt) :
    cfg.User.RunCount = fileRunCount w up + 1
    ∧ cfg.User = { userValues (w.read up) with RunCount := fileRunCount w up + 1 }
    ∧ (ParseConfig w).2.read up
        = some { YamlDoc.empty with
            showPRLink := some (userValues (w.read up)).ShowPRLink,
            logGitCommands := some (userValues (w.read up)).LogGitCommands,
            logGitHubCalls := some (userValues (w.read up)).LogGitHubCalls,
            statusBitsHeader := some (userValues (w.read up)).StatusBitsHeader,
            stargazer := some (userValues (w.read up)).Stargazer,
            runcount := some (fileRunCount w up + 1) }
    ∧ ∀ k : Nat, fileRunCount w up + k ≤ maxInt →
        fileRunCount (resolutions k w) up = fileRunCount w up + k
        ∧ ∀ i : Nat, i < k →
            ∃ c, (ParseConfig (resolutions i w)).1 = .returned c
              ∧ c.User.RunCount = fileRunCount w up + i + 1 := by
  obtain ⟨hu, hr, _⟩ := fileRunCount_after w cfg up h hup hne
  rw [intAdd_one _ hlo hhi] at hu
  refine ⟨by rw [hu], hu, ?_, ?_⟩
  · rw [hr, hu]
    rfl
  · intro k hk
    exact resolutions_count up k w cfg h hup hne hlo hk

/-- C4 as amended, on a user file `/home/u/.spr.yml` that holds run count 41
and `stargazer`, the working tree being `/work/widgets`: the run returns 42
and writes 42, `stargazer` is kept, and runs in succession count on. -/
theorem ParseConfig_bumps_RunCount_witness :
    ((42 : Int) = fileRunCount countedWorld "/home/u/.spr.yml" + 1
    ∧ ({ ShowPRLink := true, LogGitCommands := false, LogGitHubCalls := false,
         StatusBitsHeader := true, Stargazer := true, RunCount := 42 } : UserConfig)
        = { userValues (countedWorld.read "/home/u/.spr.yml") with
            RunCount := fileRunCount countedWorld "/home/u/.spr.yml" + 1 }
    ∧ (ParseConfig countedWorld).2.read "/home/u/.spr.yml"
        = some { YamlDoc.empty with
            showPRLink := some (userValues (countedWorld.read "/home/u/.spr.yml")).ShowPRLink,
            logGitCommands :=
              some (userValues (countedWorld.read "/home/u/.spr.yml")).LogGitCommands,
            logGitHubCalls :=
              some (userValues (countedWorld.read "/home/u/.spr.yml")).LogGitHubCalls,
            statusBitsHeader :=
              some (userValues (countedWorld.read "/home/u/.spr.yml")).StatusBitsHeader,
            stargazer := some (userValues (countedWorld.read "/home/u/.spr.yml")).Stargazer,
            runcount := some (fileRunCount countedWorld "/home/u/.spr.yml" + 1) }
    ∧ ∀ k : Nat, fileRunCount countedWorld "/home/u/.spr.yml" + k ≤ maxInt →
        fileRunCount (resolutions k countedWorld) "/home/u/.spr.yml"
          = fileRunCount countedWorld "/home/u/.spr.yml" + k
        ∧ ∀ i : Nat, i < k →
            ∃ c, (ParseConfig (resolutions i countedWorld)).1 = .returned c
              ∧ c.User.RunCount = fileRunCount countedWorld "/home/u/.spr.yml" + i + 1)
    ∧ (ParseConfig countedWorld).2.read "/home/u/.spr.yml"
        = some { YamlDoc.empty with
            showPRLink := some true, logGitCommands := some false,
            logGitHubCalls := some false, statusBitsHeader := some true,
            stargazer := some true, runcount := some 42 } :=
  ⟨ParseConfig_bumps_RunCount countedWorld
    { Repo := { GitHubRepoOwner := "acme", GitHubRepoName := "widgets",
                RequireChecks := true, RequireApproval := true,
                GitHubRemote := "origin", GitHubBranch := "master" },
      User := { ShowPRLink := true, LogGitCommands := false, LogGitHubCalls := false,
                StatusBitsHeader := true, Stargazer := true, RunCount := 42 } }
    "/home/u/.spr.yml"
    (by decide) rfl (by decide) (by decide) (by decide), by decide⟩

/-- C9 fails in two ways. With the user file holding the largest int
9223372036854775807, the successful run returns and writes
-9223372036854775808, which is smaller. And when the working-tree root is the
home directory, so that the user file is the repository file, a user file that
holds 41 gives a successful run that returns and writes 1. -/
theorem ParseConfig_RunCount_decreases :
    (fileRunCount lastCountWorld "/home/u/.spr.yml" = 9223372036854775807
      ∧ (ParseConfig lastCountWorld).1
          = .returned
              { Repo := { GitHubRepoOwner := "acme", GitHubRepoName := "widgets",
                          RequireChecks := true, RequireApproval := true,
                          GitHubRemote := "origin", GitHubBranch := "master" },
                User := { ShowPRLink := true, LogGitCommands := false,
                          LogGitHubCalls := false, StatusBitsHeader := true,
                          Stargazer := false, RunCount := -9223372036854775808 } }
      ∧ fileRunCount (ParseConfig lastCountWorld).2 "/home/u/.spr.yml"
          = -9223372036854775808)
    ∧ (UserConfigFilePath homeRootWorld = .ok (RepoConfigFilePath homeRootWorld)
      ∧ fileRunCount homeRootWorld (RepoConfigFilePath homeRootWorld) = 41
      ∧ (ParseConfig homeRootWorld).1
          = .returned
              { Repo := { GitHubRepoOwner := "acme", GitHubRepoName := "widgets",
                          RequireChecks := true, RequireApproval := true,
                          GitHubRemote := "origin", GitHubBranch := "master" },
                User := { ShowPRLink := true, LogGitCommands := false,
                          LogGitHubCalls := false, StatusBitsHeader := true,
                          Stargazer := false, RunCount := 1 } }
      ∧ fileRunCount (ParseConfig homeRootWorld).2 (RepoConfigFilePath homeRootWorld) = 1) := by
  refine ⟨⟨by decide, by decide, by decide⟩, rfl, by decide, by decide, by decide⟩

/-- C9 as amended: for every run count n that the user file can hold other
than the largest int, and with the user file not being the repository file,
the RunCount that a successful run returns, and the one it writes to the user
file, is greater than or equal to n. -/
theorem ParseConfig_RunCount_monotone (w : World) (cfg : Config) (up : String)
    (h : (ParseConfig w).1 = .returned cfg)
    (hup : UserConfigFilePath w = .ok up) (hne : RepoConfigFilePath w ≠ up)
    (hlo : minInt ≤ fileRunCount w up) (hhi : fileRunCount w up < maxInt) :
    fileRunCount w up ≤ cfg.User.RunCount
    ∧ fileRunCount w up ≤ fileRunCount (ParseConfig w).2 up := by
  obtain ⟨hu, _, hf⟩ := fileRunCount_after w cfg up h hup hne
  rw [intAdd_one _ hlo hhi] at hu hf
  have hc : cfg.User.RunCount = fileRunCount w up + 1 := by rw [hu]
  omega

/-- C9 as amended, on a user file that holds run count 41. -/
theorem ParseConfig_RunCount_monotone_witness :
    fileRunCount countedWorld "/home/u/.spr.yml" ≤ 42
    ∧ fileRunCount countedWorld "/home/u/.spr.yml"
        ≤ fileRunCount (ParseConfig countedWorld).2 "/home/u/.spr.yml" :=
  ParseConfig_RunCount_monotone countedWorld
    { Repo := { GitHubRepoOwner := "acme", GitHubRepoName := "widgets",
                RequireChecks := true, RequireApproval := true,
                GitHubRemote := "origin", GitHubBranch := "master" },
      User := { ShowPRLink := true, LogGitCommands := false, LogGitHubCalls := false,
                StatusBitsHeader := true, Stargazer := true, RunCount := 42 } }
    "/home/u/.spr.yml"
    (by decide) rfl (by decide) (by decide) (by decide)

end Spr
